import Mathlib

/-!
Verification development for the heracles binary codec framework
(`src/heracles`): a shallow embedding of the codec composition engine —
scalar leaf codecs (`scalars.py`), repetition codecs (`array.py`),
field-composition codecs (`struct.py`) and closed-domain codecs
(`enum.py`) — together with proofs and refutations of the specified
properties (round trip, encode padding, decode bounds, byte-size algebra,
hidden-member exclusion, VST placement, construction semantics).

Bytes are modelled as `Nat` (with explicit `< 256` bounds where the
source relies on them), machine integers as `Int` with the exact ranges
of `ScalarMetadata._FORMATTERS_INFO`, and fallible operations return
`Except`.
-/

namespace Heracles

/-! ## Byte-level packing (the `struct.pack` / `struct.unpack` leaf routines)

`Scalar.serialize_value` and `Scalar.deserialize` in `scalars.py` delegate
to Python's fixed-width pack/unpack for the format and endianness frozen in
`ScalarMetadata`.  We model the integer formats: a `w`-byte unsigned or
two's-complement signed integer, little- or big-endian. -/

/-- Little-endian base-256 digits of `n`, exactly `w` bytes. -/
def encodeLE : Nat → Nat → List Nat
  | _, 0 => []
  | n, w + 1 => n % 256 :: encodeLE (n / 256) w

/-- Read a little-endian base-256 byte list back into a `Nat`. -/
def decodeLE : List Nat → Nat
  | [] => 0
  | b :: bs => b + 256 * decodeLE bs

theorem length_encodeLE (n w : Nat) : (encodeLE n w).length = w := by
  induction w generalizing n with
  | zero => rfl
  | succ w ih => simp [encodeLE, ih]

theorem decodeLE_encodeLE (w : Nat) (n : Nat) (h : n < 256 ^ w) :
    decodeLE (encodeLE n w) = n := by
  induction w generalizing n with
  | zero =>
    simp [encodeLE, decodeLE]
    omega
  | succ w ih =>
    have hdiv : n / 256 < 256 ^ w := by
      rw [Nat.div_lt_iff_lt_mul (by norm_num)]
      calc n < 256 ^ (w + 1) := h
        _ = 256 ^ w * 256 := by ring
    simp [encodeLE, decodeLE, ih _ hdiv]
    omega

theorem decodeLE_lt (bs : List Nat) (h : ∀ b ∈ bs, b < 256) :
    decodeLE bs < 256 ^ bs.length := by
  induction bs with
  | nil => simp [decodeLE]
  | cons b bs ih =>
    have hb : b < 256 := h b (List.mem_cons_self ..)
    have htail : decodeLE bs < 256 ^ bs.length :=
      ih fun x hx => h x (List.mem_cons_of_mem _ hx)
    have hpos : 0 < 256 ^ bs.length := Nat.pos_pow_of_pos _ (by norm_num)
    simp only [decodeLE, List.length_cons, pow_succ]
    omega

theorem encodeLE_all_lt (n w : Nat) : ∀ b ∈ encodeLE n w, b < 256 := by
  induction w generalizing n with
  | zero => simp [encodeLE]
  | succ w ih =>
    intro b hb
    simp only [encodeLE, List.mem_cons] at hb
    rcases hb with h | h
    · omega
    · exact ih _ _ h

/-- Signedness threshold: `128 * 256 ^ (w - 1)` is `2 ^ (8 w - 1)` for the
widths 1, 2, 4 and 8 of `_FORMATTERS_INFO` (128, 32768, …). -/
def half256 (w : Nat) : Nat := 128 * 256 ^ (w - 1)

/-- The inclusive ranges enforced by the `IntRangeValidator` table of
`ScalarMetadata._FORMATTERS_INFO`: `[0, 256^w - 1]` unsigned,
`[-half, half - 1]` signed. -/
def inRangeI (w : Nat) (sgn : Bool) (n : Int) : Bool :=
  if sgn then decide (-(half256 w : Int) ≤ n ∧ n < (half256 w : Int))
  else decide (0 ≤ n ∧ n < (256 : Int) ^ w)

/-- Pack an in-range integer into `w` bytes (two's complement when signed),
little-endian, reversed for big-endian — the behaviour of `struct.pack`
with the `fmt_spec` built in `ScalarMetadata.__init__`. -/
def packInt (w : Nat) (be : Bool) (n : Int) : List Nat :=
  let u : Nat := (n % ((256 : Int) ^ w)).toNat
  let bs := encodeLE u w
  if be then bs.reverse else bs

/-- Unpack `w` bytes into an integer, interpreting the top bit as the sign
when `sgn` — the behaviour of `struct.unpack` for the same format. -/
def unpackInt (w : Nat) (sgn be : Bool) (raw : List Nat) : Int :=
  let bs := if be then raw.reverse else raw
  let u : Nat := decodeLE bs
  if sgn && decide (half256 w ≤ u) then (u : Int) - (256 : Int) ^ w else (u : Int)

theorem length_packInt (w : Nat) (be : Bool) (n : Int) :
    (packInt w be n).length = w := by
  unfold packInt
  cases be <;> simp [length_encodeLE]

theorem packInt_all_lt (w : Nat) (be : Bool) (n : Int) :
    ∀ b ∈ packInt w be n, b < 256 := by
  unfold packInt
  cases be <;> simp <;> exact fun b hb => encodeLE_all_lt _ _ b (by simpa using hb)

theorem two_half256 (w : Nat) (hw : 1 ≤ w) : 2 * half256 w = 256 ^ w := by
  unfold half256
  obtain ⟨w', rfl⟩ : ∃ w', w = w' + 1 := ⟨w - 1, by omega⟩
  simp [pow_succ]
  ring

/-- Pack/unpack round trip for every in-range integer. -/
theorem unpackInt_packInt (w : Nat) (sgn be : Bool) (n : Int)
    (hw : 1 ≤ w) (hr : inRangeI w sgn n = true) :
    unpackInt w sgn be (packInt w be n) = n := by
  have hhalf : 2 * half256 w = 256 ^ w := two_half256 w hw
  have hposI : (0 : Int) < (256 : Int) ^ w := by positivity
  have hcast : ((256 : Int) ^ w) = ((256 ^ w : Nat) : Int) := by push_cast; ring
  have hhalfle : (half256 w : Int) ≤ (256 : Int) ^ w := by
    rw [hcast]
    push_cast
    omega
  rw [inRangeI] at hr
  unfold unpackInt packInt
  cases be <;> simp only [List.reverse_reverse, if_true, if_false, Bool.false_eq_true] <;>
  · set u : Nat := (n % ((256 : Int) ^ w)).toNat with hu
    have hmodlt : n % ((256 : Int) ^ w) < (256 : Int) ^ w := Int.emod_lt_of_pos _ hposI
    have hmodnn : 0 ≤ n % ((256 : Int) ^ w) := Int.emod_nonneg _ (by positivity)
    have hult : u < 256 ^ w := by omega
    rw [decodeLE_encodeLE w u hult]
    cases sgn with
    | false =>
      have hr' : 0 ≤ n ∧ n < (256 : Int) ^ w := by simpa using hr
      have hmod : n % ((256 : Int) ^ w) = n := Int.emod_eq_of_lt hr'.1 hr'.2
      have huval : (u : Int) = n := by rw [hu, hmod]; omega
      simp [huval]
    | true =>
      have hr' : -(half256 w : Int) ≤ n ∧ n < (half256 w : Int) := by simpa using hr
      by_cases hn : 0 ≤ n
      · have hlt : n < (256 : Int) ^ w := by omega
        have hmod : n % ((256 : Int) ^ w) = n := Int.emod_eq_of_lt hn hlt
        have huval : (u : Int) = n := by rw [hu, hmod]; omega
        have hguard : ¬ half256 w ≤ u := by
          have : (u : Int) < (half256 w : Int) := by omega
          omega
        simp [hguard, huval]
      · push_neg at hn
        have hmod : n % ((256 : Int) ^ w) = n + (256 : Int) ^ w := by
          have h1 : (n + (256 : Int) ^ w * 1) % ((256 : Int) ^ w) = n % ((256 : Int) ^ w) :=
            Int.add_mul_emod_self_left n ((256 : Int) ^ w) 1
          have h0 : 0 ≤ n + (256 : Int) ^ w := by
            have : (half256 w : Int) ≤ (256 : Int) ^ w := hhalfle
            omega
          have h2 : (n + (256 : Int) ^ w) % ((256 : Int) ^ w) = n + (256 : Int) ^ w :=
            Int.emod_eq_of_lt h0 (by omega)
          have h1' : (n + (256 : Int) ^ w) % ((256 : Int) ^ w) = n % ((256 : Int) ^ w) := by
            simp only [mul_one] at h1
            exact h1
          omega
        have huval : (u : Int) = n + (256 : Int) ^ w := by
          rw [hu, hmod]
          have h0 : 0 ≤ n + (256 : Int) ^ w := by omega
          omega
        have hguard : half256 w ≤ u := by
          have h2 : ((256 : Int) ^ w) = 2 * (half256 w : Int) := by
            rw [hcast]
            push_cast
            omega
          have h1 : (half256 w : Int) ≤ (u : Int) := by omega
          omega
        simp [hguard, huval]

/-! ## The codec data model

A `Codec` is a schema node as assembled at schema-definition time:

* `scalar w sgn be dflt hid` — a leaf codec of `scalars.py`: width `w`
  bytes, signed/unsigned, endianness, the default value held by the schema
  instance (`Scalar.__init__` defaults it to 0), and the hidden flag
  (`true` for `PadByte`, whose `__ishidden__` is overridden).
* `enumC w sgn be dflt lits` — an enum over an integral underlying scalar
  (`EnumMetadata`), with the declaring instance's value as default and the
  ordered literal values of `classdict.members`.
* `array m M e` — `ArrayMetadata`: `array_size = slice(m, M)` (`M = none`
  is an open upper bound) over the element codec `e`.
* `strukt ms` — `StructMetadata`: the ordered member map.  Member keys
  are either a visible name or the generated `HiddenSentinal` key that
  `StructMeta.__prepare__.on_member_add` substitutes for hidden members.

A runtime value (`Val`) is an integer (scalar/enum domain), a sequence
(array domain), or a struct instance holding the values of the visible
members in member order (hidden members have no per-instance storage:
`Struct.__init__` skips them). -/

/-- A key in the ordered member map: a visible name, or the generated
unique `HiddenSentinal` key of a hidden member. -/
inductive MKey where
  | name (s : String)
  | hidden (id : Nat)
  deriving DecidableEq, Repr

inductive Codec where
  | scalar (w : Nat) (sgn : Bool) (be : Bool) (dflt : Int) (hid : Bool)
  | enumC (w : Nat) (sgn : Bool) (be : Bool) (dflt : Int) (lits : List Int)
  | array (m : Nat) (M : Option Nat) (e : Codec)
  | strukt (ms : List (MKey × Codec))

inductive Val where
  | int (n : Int)
  | seq (elems : List Val)
  | strukt (fields : List Val)

/-- The native `u8` codec (`class u8(Scalar, endianness=native, fmt='B')`)
with its default value 0. -/
def u8c : Codec := .scalar 1 false false 0 false

/-- `__ishidden__`: overridden to `True` by `PadByte`, and by
`ArrayMeta.__ishidden__` when the element serializer is hidden; `False`
everywhere else. -/
def isHiddenC : Codec → Bool
  | .scalar _ _ _ _ hid => hid
  | .enumC .. => false
  | .array _ _ e => isHiddenC e
  | .strukt _ => false

/-- The bound test `size.start != size.stop` of `ArrayMeta.__isvst__`
(an open `stop` always differs from the integer `start`). -/
def sizeDiffers (m : Nat) (M : Option Nat) : Bool :=
  match M with
  | none => true
  | some k => decide (k ≠ m)

/-- The length guard of `Array._heracles_validate_`:
`size.stop is not None and len(value) > size.stop`. -/
def maxLenOk (M : Option Nat) (len : Nat) : Bool :=
  match M with
  | none => true
  | some k => decide (len ≤ k)

/-- The upper-bound guard of `Array.deserialize`:
`size.stop is not None and len(raw_data) > size.stop * element_size`. -/
def tooLong (M : Option Nat) (len s : Nat) : Bool :=
  match M with
  | none => false
  | some k => decide (len > k * s)

/-- The length guard of `Array._heracles_compare_`:
`size.stop is not None and max(len(other), len(value)) > size.stop`. -/
def cmpLenOk (M : Option Nat) (a b : Nat) : Bool :=
  match M with
  | none => true
  | some k => decide (max a b ≤ k)

/-- `min_count <= max_count` when the upper bound is closed
(enforced by `ArrayMeta.__getitem__`). -/
def minLeMax (m : Nat) (M : Option Nat) : Bool :=
  match M with
  | none => true
  | some k => decide (m ≤ k)

mutual

/-- `__isvst__` / `_heracles_vst_`: an array is variable iff
`size.start != size.stop` (an open `stop` always differs from `start`);
a struct is variable iff its last member is. -/
def isVst : Codec → Bool
  | .scalar .. => false
  | .enumC .. => false
  | .array m M _ => sizeDiffers m M
  | .strukt ms => lastIsVst ms

def lastIsVst : List (MKey × Codec) → Bool
  | [] => false
  | (_, c) :: rest =>
      match rest with
      | [] => isVst c
      | _ :: _ => lastIsVst rest

end

mutual

/-- Fixed byte size frozen at schema definition time:
`ScalarMetadata.__init__` (the format's width), `ArrayMetadata.__init__`
(`size.start * byte_size(serializer)`), and `StructMetadata.__init__`
(sum of the members' fixed sizes). -/
def fixedSize : Codec → Nat
  | .scalar w _ _ _ _ => w
  | .enumC w _ _ _ _ => w
  | .array m _ e => m * fixedSize e
  | .strukt ms => fixedSizeM ms

def fixedSizeM : List (MKey × Codec) → Nat
  | [] => 0
  | (_, c) :: rest => fixedSize c + fixedSizeM rest

end

mutual

/-- The default value a schema-level serializer instance holds: 0 for a
scalar declared by type, the declaring instance's value for an enum, the
empty tuple for an `Array()`, and the all-default instance for a
`Struct()` (every visible member set from its member serializer). -/
def defaultVal : Codec → Val
  | .scalar _ _ _ d _ => .int d
  | .enumC _ _ _ d _ => .int d
  | .array _ _ _ => .seq []
  | .strukt ms => .strukt (defaultFields ms)

def defaultFields : List (MKey × Codec) → List Val
  | [] => []
  | (_, c) :: rest =>
      if isHiddenC c then defaultFields rest
      else defaultVal c :: defaultFields rest

end

mutual

/-- `_heracles_validate_`: scalars check the `IntRangeValidator` range;
enums check the underlying range and then literal membership; arrays
check `len(value) > size.stop` and validate every element; structs check
the value's shape (the `type(self) != type(value)` test) and validate
every visible member's field. -/
def validate : Codec → Val → Bool
  | .scalar w sgn _ _ _, v =>
      match v with
      | .int n => inRangeI w sgn n
      | .seq _ => false
      | .strukt _ => false
  | .enumC w sgn _ _ lits, v =>
      match v with
      | .int n => inRangeI w sgn n && lits.contains n
      | .seq _ => false
      | .strukt _ => false
  | .array _ M e, v =>
      match v with
      | .seq xs => maxLenOk M xs.length && validateList e xs
      | .int _ => false
      | .strukt _ => false
  | .strukt ms, v =>
      match v with
      | .strukt fs => validateFields ms fs
      | .int _ => false
      | .seq _ => false
termination_by c v => (sizeOf c, sizeOf v)

def validateList : Codec → List Val → Bool
  | _, [] => true
  | e, x :: xs => validate e x && validateList e xs
termination_by e xs => (sizeOf e, sizeOf xs)

def validateFields : List (MKey × Codec) → List Val → Bool
  | [], fs => fs.isEmpty
  | (_, c) :: rest, fs =>
      if isHiddenC c then validateFields rest fs
      else validateVis c rest fs
termination_by ms fs => (sizeOf ms, sizeOf fs)

def validateVis (c : Codec) (rest : List (MKey × Codec)) : List Val → Bool
  | [] => false
  | f :: fs' => validate c f && validateFields rest fs'
termination_by fs => (1 + sizeOf c + sizeOf rest, sizeOf fs)

end

/-! ## Serialization, deserialization, byte size and comparison -/

/-- Value-level error domains of §7: `ValidationError` (a `ValueError`
raised by a validator or membership/shape check), `DecodeError` (raw byte
length outside the expected bound or not a multiple of the element size),
`UnknownFieldsError` (unrecognized construction key), `TypeMismatchError`
(comparing against a different concrete struct type), plus the Python-level
failures the source can raise on its own: `TypeError` for a missing
required argument and `AttributeError` for a missing attribute. -/
inductive HErr where
  | validationError
  | decodeError
  | unknownFields
  | typeMismatch
  | typeError
  | attributeError
  | indexError
  deriving DecidableEq, Repr

/-- A byte string proper: every entry below 256. -/
def bytesOk : List Nat → Bool
  | [] => true
  | b :: bs => decide (b < 256) && bytesOk bs

mutual

/-- The byte production of `serialize_value` (its leading
`_heracles_validate_` call is modelled by the `validate` hypotheses of the
theorems below): scalars pack; enums delegate to the underlying scalar
(`Enum.serialize_value`); arrays encode the present elements in order and
then `remaining_elements = (byte_size(self, value) - len(serialized)) //
byte_size(serializer)` copies of the element serializer's default
encoding (`Array.serialize_value`); structs concatenate the members'
encodings in member order, hidden members encoding their serializer's own
default (`Struct.serialize_value`). -/
def encodeVal : Codec → Val → List Nat
  | .scalar w _ be _ _, v =>
      match v with
      | .int n => packInt w be n
      | .seq _ => []
      | .strukt _ => []
  | .enumC w _ be _ _, v =>
      match v with
      | .int n => packInt w be n
      | .seq _ => []
      | .strukt _ => []
  | .array m _ e, v =>
      match v with
      | .seq xs =>
          let ser := encodeList e xs
          let remaining := (max m xs.length * fixedSize e - ser.length) / fixedSize e
          ser ++ (List.replicate remaining (encodeVal e (defaultVal e))).flatten
      | .int _ => []
      | .strukt _ => []
  | .strukt ms, v =>
      match v with
      | .strukt fs => encodeFields ms fs
      | .int _ => []
      | .seq _ => []
termination_by c v => (sizeOf c, sizeOf v)

def encodeList : Codec → List Val → List Nat
  | _, [] => []
  | e, x :: xs => encodeVal e x ++ encodeList e xs
termination_by e xs => (sizeOf e, sizeOf xs)

def encodeFields : List (MKey × Codec) → List Val → List Nat
  | [], _ => []
  | (_, c) :: rest, fs =>
      if isHiddenC c then encodeVal c (defaultVal c) ++ encodeFields rest fs
      else encodeVis c rest fs
termination_by ms fs => (sizeOf ms, sizeOf fs)

def encodeVis (c : Codec) (rest : List (MKey × Codec)) : List Val → List Nat
  | [] => encodeFields rest []
  | f :: fs' => encodeVal c f ++ encodeFields rest fs'
termination_by fs => (1 + sizeOf c + sizeOf rest, sizeOf fs)

end

mutual

/-- `__bytesize__` / `_heracles_bytesize_` with a value: scalars and enums
are fixed; `Array.__bytesize__` is `max(min_count, len(value)) *
element_size`; `Struct._heracles_bytesize_` starts from the fixed size
and, when the struct is variable, adds the difference between the last
member's actual size for the bound field and its fixed size. -/
def byteSizeVal : Codec → Val → Nat
  | .scalar w _ _ _ _, _ => w
  | .enumC w _ _ _ _, _ => w
  | .array m _ e, v =>
      match v with
      | .seq xs => max m xs.length * fixedSize e
      | .int _ => m * fixedSize e
      | .strukt _ => m * fixedSize e
  | .strukt ms, v =>
      match v with
      | .strukt fs => fixedSizeM ms + (if lastIsVst ms then lastDiff ms fs else 0)
      | .int _ => fixedSizeM ms
      | .seq _ => fixedSizeM ms

/-- The `diff` computed for the last member in
`Struct._heracles_bytesize_`: actual size of the bound field minus the
member's fixed size.  The bound field of the last (necessarily visible)
member is the last entry of the instance's visible-field list. -/
def lastDiff : List (MKey × Codec) → List Val → Nat
  | [], _ => 0
  | (_, c) :: rest, fs =>
      match rest with
      | [] => byteSizeVal c (fs.getLast?.getD (.int 0)) - fixedSize c
      | _ :: _ => lastDiff rest (if isHiddenC c then fs else fs.drop 1)

end

mutual

/-- The value that decoding an encoding produces (the decoded normal
form): scalars and enums decode back to themselves, arrays come back
with the padding elements made explicit (`max(min_count, len)` elements),
and structs come back field by field. -/
def canon : Codec → Val → Val
  | .scalar .., v => v
  | .enumC .., v => v
  | .array m _ e, v =>
      match v with
      | .seq xs =>
          .seq (canonList e xs ++ List.replicate (m - xs.length) (canon e (defaultVal e)))
      | .int n => .int n
      | .strukt fs => .strukt fs
  | .strukt ms, v =>
      match v with
      | .strukt fs => .strukt (canonFields ms fs)
      | .int n => .int n
      | .seq xs => .seq xs
termination_by c v => (sizeOf c, sizeOf v)

def canonList : Codec → List Val → List Val
  | _, [] => []
  | e, x :: xs => canon e x :: canonList e xs
termination_by e xs => (sizeOf e, sizeOf xs)

def canonFields : List (MKey × Codec) → List Val → List Val
  | [], _ => []
  | (_, c) :: rest, fs =>
      if isHiddenC c then canonFields rest fs
      else canonVis c rest fs
termination_by ms fs => (sizeOf ms, sizeOf fs)

def canonVis (c : Codec) (rest : List (MKey × Codec)) : List Val → List Val
  | [] => []
  | f :: fs' => canon c f :: canonFields rest fs'
termination_by fs => (1 + sizeOf c + sizeOf rest, sizeOf fs)

end

/-- `iter_chunks` from `_utils.py`: successive slices of `size` bytes. -/
def chunkList (s : Nat) (raw : List Nat) : List (List Nat) :=
  match raw, s with
  | [], _ => []
  | _ :: _, 0 => []
  | b :: rest, s' + 1 => (b :: rest.take s') :: chunkList (s' + 1) (rest.drop s')
termination_by raw.length
decreasing_by
  simp only [List.length_cons, List.length_drop]
  omega

mutual

/-- `deserialize`: scalars unpack exactly their width and validate the
range (`Scalar.deserialize`); enums delegate to the underlying scalar
without an enum-membership check (`Enum.deserialize`); arrays check the
`[min, max] * element_size` bounds and divisibility, then decode chunks
left to right (`Array.deserialize`); structs check the minimum length,
slice each member's fixed size (a variable last member receives all
remaining bytes), drop hidden members, and rebuild through the
constructor — whose `Serializer.__init__` re-validates every visible
field (`Struct.deserialize`). -/
def deserialize : Codec → List Nat → Except HErr Val
  | .scalar w sgn be _ _, raw =>
      if raw.length = w then
        let n := unpackInt w sgn be raw
        if inRangeI w sgn n then .ok (.int n) else .error .validationError
      else .error .decodeError
  | .enumC w sgn be _ _, raw =>
      if raw.length = w then
        let n := unpackInt w sgn be raw
        if inRangeI w sgn n then .ok (.int n) else .error .validationError
      else .error .decodeError
  | .array m M e, raw =>
      if m * fixedSize e > raw.length then .error .decodeError
      else if tooLong M raw.length (fixedSize e) then .error .decodeError
      else if raw.length % fixedSize e ≠ 0 then .error .decodeError
      else
        match decodeChunks e (chunkList (fixedSize e) raw) with
        | .error err => .error err
        | .ok xs => .ok (.seq xs)
  | .strukt ms, raw =>
      if raw.length < fixedSizeM ms then .error .decodeError
      else
        match decodeMembers ms raw with
        | .error err => .error err
        | .ok fs => if validateFields ms fs then .ok (.strukt fs) else .error .validationError

def decodeChunks : Codec → List (List Nat) → Except HErr (List Val)
  | _, [] => .ok []
  | e, chunk :: rest =>
      match deserialize e chunk with
      | .error err => .error err
      | .ok v =>
          match decodeChunks e rest with
          | .error err => .error err
          | .ok vs => .ok (v :: vs)

def decodeMembers : List (MKey × Codec) → List Nat → Except HErr (List Val)
  | [], _ => .ok []
  | (_, c) :: rest, raw =>
      let piece := if isVst c then raw else raw.take (fixedSize c)
      match deserialize c piece with
      | .error err => .error err
      | .ok v =>
          match decodeMembers rest (raw.drop piece.length) with
          | .error err => .error err
          | .ok fs => .ok (if isHiddenC c then fs else v :: fs)

end

mutual

/-- `_heracles_compare_` with `value` the instance's own value and
`other` the compared value: scalars and enums compare the (validated)
underlying integers; `Array._heracles_compare_` returns `False` when
`max(len(other), len(value))` exceeds the bound and otherwise compares
`zip_longest(value, other)` with the element default as fill value using
plain element equality; `Struct._heracles_compare_` compares the visible
members' fields with each member serializer's compare.  Shape mismatches
yield `false`. -/
def compareC : Codec → Val → Val → Bool
  | .scalar .., a, b =>
      match a with
      | .int x =>
          (match b with
           | .int y => decide (x = y)
           | .seq _ => false
           | .strukt _ => false)
      | .seq _ => false
      | .strukt _ => false
  | .enumC .., a, b =>
      match a with
      | .int x =>
          (match b with
           | .int y => decide (x = y)
           | .seq _ => false
           | .strukt _ => false)
      | .seq _ => false
      | .strukt _ => false
  | .array _ M e, a, b =>
      match a with
      | .seq xs =>
          (match b with
           | .seq ys => cmpLenOk M xs.length ys.length && zipCmp e xs ys
           | .int _ => false
           | .strukt _ => false)
      | .int _ => false
      | .strukt _ => false
  | .strukt ms, a, b =>
      match a with
      | .strukt fs =>
          (match b with
           | .strukt gs => compareFieldsC ms fs gs
           | .int _ => false
           | .seq _ => false)
      | .int _ => false
      | .seq _ => false
termination_by c a b => (sizeOf c, 1, sizeOf a + sizeOf b)

/-- `itertools.zip_longest(value, other, fillvalue=element default)` with
Python `==` applied pairwise. -/
def zipCmp : Codec → List Val → List Val → Bool
  | _, [], [] => true
  | e, x :: xs, [] => pyEq e x (defaultVal e) && zipCmp e xs []
  | e, [], y :: ys => pyEq e (defaultVal e) y && zipCmp e [] ys
  | e, x :: xs, y :: ys => pyEq e x y && zipCmp e xs ys
termination_by e xs ys => (sizeOf e, 3, sizeOf xs + sizeOf ys)

/-- Python `==` on two plain values of a codec's domain: integers compare
as integers, plain sequences (tuples) compare length and elements
pairwise, and struct instances dispatch to `Struct.__eq__`, i.e. the
codec-level compare. -/
def pyEq : Codec → Val → Val → Bool
  | .scalar .., a, b =>
      match a with
      | .int x =>
          (match b with
           | .int y => decide (x = y)
           | .seq _ => false
           | .strukt _ => false)
      | .seq _ => false
      | .strukt _ => false
  | .enumC .., a, b =>
      match a with
      | .int x =>
          (match b with
           | .int y => decide (x = y)
           | .seq _ => false
           | .strukt _ => false)
      | .seq _ => false
      | .strukt _ => false
  | .array _ _ e, a, b =>
      match a with
      | .seq xs =>
          (match b with
           | .seq ys => pyEqList e xs ys
           | .int _ => false
           | .strukt _ => false)
      | .int _ => false
      | .strukt _ => false
  | .strukt ms, a, b => compareC (.strukt ms) a b
termination_by c a b => (sizeOf c, 2, sizeOf a + sizeOf b)

def pyEqList : Codec → List Val → List Val → Bool
  | _, [], ys =>
      match ys with
      | [] => true
      | _ :: _ => false
  | e, x :: xs, ys =>
      match ys with
      | [] => false
      | y :: ys' => pyEq e x y && pyEqList e xs ys'
termination_by e xs ys => (sizeOf e, 3, sizeOf xs + sizeOf ys)

def compareFieldsC : List (MKey × Codec) → List Val → List Val → Bool
  | [], _, _ => true
  | (_, c) :: rest, fs, gs =>
      if isHiddenC c then compareFieldsC rest fs gs
      else compareVis c rest fs gs
termination_by ms fs gs => (sizeOf ms, 1, sizeOf fs + sizeOf gs)

def compareVis (c : Codec) (rest : List (MKey × Codec)) :
    List Val → List Val → Bool
  | [], _ => false
  | _ :: _, [] => false
  | f :: fs', g :: gs' => compareC c f g && compareFieldsC rest fs' gs'
termination_by fs gs => (1 + sizeOf c + sizeOf rest, 1, sizeOf fs + sizeOf gs)

end

/-! ## Well-formed schemas

Conditions guaranteed for every codec type that schema assembly actually
produces: scalar widths come from the 1/2/4/8-byte format table and
schema-instance defaults pass `Serializer.__init__`'s validation; enum
literals pass the underlying validator (`EnumMetadata.__init__`) and the
declaring instance's value is a literal (`Enum.__init__`); array bounds
satisfy `min <= max` (`ArrayMeta.__getitem__`), hidden elements force a
fixed count, elements are non-variable with a positive fixed size (the
element-size algebra of §4.3); struct member keys are `HiddenSentinal`s
exactly for hidden members (`on_member_add`), visible names are unique
(`MetaDict.__setitem__`), only the last member may be variable (§4.4
step 2) and a hidden member is never variable. -/

def widthOk (w : Nat) : Bool := w = 1 || w = 2 || w = 4 || w = 8

def litsAllOk (w : Nat) (sgn : Bool) : List Int → Bool
  | [] => true
  | v :: rest => inRangeI w sgn v && litsAllOk w sgn rest

def keyHidden : MKey → Bool
  | .name _ => false
  | .hidden _ => true

def hasVisibleName : List (MKey × Codec) → String → Bool
  | [], _ => false
  | (.name n', _) :: rest, n => n' = n || hasVisibleName rest n
  | (.hidden _, _) :: rest, n => hasVisibleName rest n

/-- A visible key must not collide with a visible name further on
(`MetaDict.__setitem__`); hidden sentinel keys are unique by
construction. -/
def keyFresh (k : MKey) (rest : List (MKey × Codec)) : Bool :=
  match k with
  | .name n => !hasVisibleName rest n
  | .hidden _ => true

mutual

def WF : Codec → Bool
  | .scalar w sgn _ d _ => widthOk w && inRangeI w sgn d
  | .enumC w sgn _ d lits =>
      widthOk w && inRangeI w sgn d && lits.contains d && litsAllOk w sgn lits
  | .array m M e =>
      WF e && !isVst e && decide (0 < fixedSize e) &&
      (!isHiddenC e || M == some m) && minLeMax m M
  | .strukt ms => membersWF ms

def membersWF : List (MKey × Codec) → Bool
  | [] => true
  | (k, c) :: rest =>
      WF c && (keyHidden k == isHiddenC c) &&
      (rest.isEmpty || !isVst c) && (!isHiddenC c || !isVst c) &&
      keyFresh k rest && membersWF rest

end

/-! ## Padding stability

`Array._heracles_compare_` checks its elements with plain Python `==`
(`all(a == b for a, b in zip_longest(...))`), not with the element
codec's padding-tolerant compare.  A sequence sitting at an
array-element position therefore survives the decode round trip up to
`==` only when it is fully populated (length at least its own
`min_count`), recursively.  `fullV c v` states exactly this side
condition for a value compared through `compareC`; `fullE e x` states it
for a value compared through plain `==` at an element position. -/
mutual

def fullV : Codec → Val → Bool
  | .scalar .., _ => true
  | .enumC .., _ => true
  | .array m _ e, v =>
      match v with
      | .seq xs => (decide (m ≤ xs.length) || fullE e (defaultVal e)) && fullEList e xs
      | .int _ => true
      | .strukt _ => true
  | .strukt ms, v =>
      match v with
      | .strukt fs => fullFields ms fs
      | .int _ => true
      | .seq _ => true
termination_by c v => (sizeOf c, 1, sizeOf v)

def fullE : Codec → Val → Bool
  | .scalar .., _ => true
  | .enumC .., _ => true
  | .array m _ e, v =>
      match v with
      | .seq xs => decide (m ≤ xs.length) && fullEList e xs
      | .int _ => true
      | .strukt _ => true
  | .strukt ms, v => fullV (.strukt ms) v
termination_by c v => (sizeOf c, 2, sizeOf v)

def fullEList : Codec → List Val → Bool
  | _, [] => true
  | e, x :: xs => fullE e x && fullEList e xs
termination_by e xs => (sizeOf e, 3, sizeOf xs)

def fullFields : List (MKey × Codec) → List Val → Bool
  | [], _ => true
  | (_, c) :: rest, fs =>
      if isHiddenC c then fullFields rest fs
      else fullVis c rest fs
termination_by ms fs => (sizeOf ms, 1, sizeOf fs)

def fullVis (c : Codec) (rest : List (MKey × Codec)) : List Val → Bool
  | [] => true
  | f :: fs' => fullV c f && fullFields rest fs'
termination_by fs => (1 + sizeOf c + sizeOf rest, 1, sizeOf fs)

end

/-! ## Decode totality classes

`Struct.deserialize` rebuilds the instance through the constructor, whose
`Serializer.__init__` re-validates every visible field; a decoded enum
value is not membership-checked by `Enum.deserialize`, so a struct with
an enum member can reject byte patterns of legal length.  `decTotal c`
holds when decoding any right-sized byte string succeeds; `decValid c`
additionally guarantees the decoded value passes `validate`. -/
mutual

def decTotal : Codec → Bool
  | .scalar .. => true
  | .enumC .. => true
  | .array _ _ e => decTotal e
  | .strukt ms => decTotalM ms

def decTotalM : List (MKey × Codec) → Bool
  | [] => true
  | (_, c) :: rest => decTotal c && (isHiddenC c || decValid c) && decTotalM rest

def decValid : Codec → Bool
  | .scalar .. => true
  | .enumC .. => false
  | .array _ _ e => decTotal e && decValid e
  | .strukt ms => decTotalM ms

end

/-! ## Schema definition for structs (`StructMeta`)

`StructMeta.__prepare__` installs `on_member_add`, which runs while the
class body executes: it rejects a member added after a variable member
(`FieldVstError`), and replaces a hidden member's key with a fresh
`HiddenSentinal`.  `StructMeta.__new__` then walks the bases: any base
following a variable base raises `BaseVstError`; afterwards, if a
variable base was seen, it reads the *last own member* (`last(...)`
raises `StopIteration` on an empty member list) and raises `BaseVstError`
only when that last member is itself variable.  The member lists are
then merged, inherited members first. -/

/-- Whether evaluating the class body raises `FieldVstError`: some own
member other than the last is variable (checked incrementally by
`on_member_add` as each member is declared). -/
def fieldVstRaised : List (MKey × Codec) → Bool
  | [] => false
  | (_, c) :: rest =>
      match rest with
      | [] => false
      | _ :: _ => isVst c || fieldVstRaised rest

/-- Schema-definition errors (§7). -/
inductive DefErr where
  | baseVst
  | fieldVst
  | stopIteration
  | keyCollision
  deriving DecidableEq, Repr

/-- The base-struct loop of `StructMeta.__new__`: raises `BaseVstError`
for any base encountered after a variable base; returns whether a
variable base was seen. -/
def baseLoop (lastBase : Bool) : List (List (MKey × Codec)) → Except DefErr Bool
  | [] => .ok lastBase
  | b :: rest =>
      if lastBase then .error .baseVst
      else baseLoop (isVst (.strukt b)) rest

/-- `StructMeta.__new__` composed with the body-evaluation checks of
`on_member_add`: the resulting ordered member list, or the
schema-definition error raised. -/
def structMetaNew (bases : List (List (MKey × Codec))) (own : List (MKey × Codec)) :
    Except DefErr (List (MKey × Codec)) :=
  if fieldVstRaised own then .error .fieldVst
  else
    match baseLoop false bases with
    | .error err => .error err
    | .ok hasVstBase =>
        if hasVstBase then
          match own.getLast? with
          | none => .error .stopIteration
          | some (_, c) =>
              if isVst c then .error .baseVst
              else .ok (bases.flatten ++ own)
        else .ok (bases.flatten ++ own)

/-- Position of some variable member that is not the last member, if the
member list contains one (the layouts §4.4 step 2 must reject). -/
def vstNotLast : List (MKey × Codec) → Bool
  | [] => false
  | (_, c) :: rest =>
      match rest with
      | [] => false
      | _ :: _ => isVst c || vstNotLast rest

/-! ## Member declaration (`on_member_add`) and instance construction -/

/-- `on_member_add` processing a sequence of `(name, codec)` declarations:
`MetaDict.__setitem__` rejects a name colliding with an existing member
key, a declaration after a variable member raises `FieldVstError`, and a
hidden member is stored under a fresh `HiddenSentinal` key. -/
def addMembers (fresh : Nat) (acc : List (MKey × Codec)) :
    List (String × Codec) → Except DefErr (List (MKey × Codec))
  | [] => .ok acc
  | (n, c) :: rest =>
      if acc.any (fun kv => kv.1 == MKey.name n) then .error .keyCollision
      else
        match acc.getLast? with
        | some (_, lc) =>
            if isVst lc then .error .fieldVst
            else addMembers (fresh + 1)
              (acc ++ [(if isHiddenC c then MKey.hidden fresh else MKey.name n, c)]) rest
        | none =>
            addMembers (fresh + 1)
              (acc ++ [(if isHiddenC c then MKey.hidden fresh else MKey.name n, c)]) rest

/-- `StructMeta.__iter__`: the member keys that are not `HiddenSentinal`s
(the user-visible field names). -/
def iterKeys : List (MKey × Codec) → List String
  | [] => []
  | (.name n, _) :: rest => n :: iterKeys rest
  | (.hidden _, _) :: rest => iterKeys rest

/-- The members whose serializer is not hidden (the set participating in
`_heracles_compare_`, `_heracles_validate_` and construction). -/
def visibleMembers : List (MKey × Codec) → List (MKey × Codec)
  | [] => []
  | (k, c) :: rest =>
      if isHiddenC c then visibleMembers rest else (k, c) :: visibleMembers rest

/-- `dict.pop(name)`: the popped value (if present) and the remaining
mapping. -/
def popKey (n : String) : List (String × Val) → Option Val × List (String × Val)
  | [] => (none, [])
  | (k, v) :: rest =>
      if k = n then (some v, rest)
      else
        let r := popKey n rest
        (r.1, (k, v) :: r.2)

/-- The member loop of `Struct.__init__` constructing from a mapping:
hidden members are skipped (`continue`); each visible member name is
popped from the mapping, the member taking the popped value or, on
`KeyError`, the member serializer's default.  Returns the visible field
values in member order and the mapping as the loop leaves it. -/
def structInitLoop : List (MKey × Codec) → List (String × Val) → List Val × List (String × Val)
  | [], d => ([], d)
  | (.hidden _, _) :: rest, d => structInitLoop rest d
  | (.name n, c) :: rest, d =>
      match popKey n d with
      | (some v, d') =>
          let r := structInitLoop rest d'
          (v :: r.1, r.2)
      | (none, d') =>
          let r := structInitLoop rest d'
          (defaultVal c :: r.1, r.2)

/-- `Struct.__init__` from a mapping: after the member loop, a non-empty
residual mapping raises `UnknownFieldsError`.  The second component is
the state the caller's mapping has been left in (the keys `pop`ped out
by the loop are gone in both outcomes). -/
def structInit (ms : List (MKey × Codec)) (d : List (String × Val)) :
    Except HErr (List Val) × List (String × Val) :=
  let r := structInitLoop ms d
  (if r.2.isEmpty then .ok r.1 else .error .unknownFields, r.2)

/-- Keys of a mapping are pairwise distinct (a real `dict`). -/
def keysNodup : List (String × Val) → Bool
  | [] => true
  | (k, _) :: rest => !(rest.any (fun kv => kv.1 == k)) && keysNodup rest

/-! ## Struct comparison with type identity (`Struct._heracles_compare_`) -/

/-- A struct instance for the comparison model: the concrete type's
identity and the instance's named fields. -/
structure SInst where
  ty : Nat
  fields : List (String × Val)

def lookupField : List (String × Val) → String → Option Val
  | [], _ => none
  | (k, v) :: rest, n => if k = n then some v else lookupField rest n

/-- The member-wise comparison loop of `Struct._heracles_compare_`:
`getattr` on a missing field raises `AttributeError`; otherwise the
member serializer compares `(other_field, value_field)`. -/
def memberCmp : List (MKey × Codec) → SInst → SInst → Except HErr Bool
  | [], _, _ => .ok true
  | (.hidden _, _) :: rest, other, value => memberCmp rest other value
  | (.name n, c) :: rest, other, value =>
      match lookupField other.fields n, lookupField value.fields n with
      | some ov, some vv =>
          match memberCmp rest other value with
          | .error err => .error err
          | .ok b => .ok (compareC c vv ov && b)
      | _, _ => .error .attributeError

/-- `Struct._heracles_compare_(other, value=None)` as written: `value`
defaults to `self`, and the guard is the chained comparison
`type(other) != type(self) != type(value)`, i.e. a conjunction of the
two inequalities, raising `TypeMismatchError` only when both hold. -/
def structHCompare (ms : List (MKey × Codec)) (self other : SInst)
    (value? : Option SInst) : Except HErr Bool :=
  let value := value?.getD self
  if other.ty ≠ self.ty ∧ self.ty ≠ value.ty then .error .typeMismatch
  else memberCmp ms other value

/-! ## Enum construction (`Enum.__init__`) -/

/-- `Enum.__init__(self, value, ...)`: the `value` parameter has no
default, so calling the type with no argument raises `TypeError` (and
the `bytes` fallback of `SerializerMeta.__call__` does not apply); with
an integer argument, `Serializer.__init__` validates it through
`Enum._heracles_validate_` (underlying range, then literal membership). -/
def enumNew (w : Nat) (sgn : Bool) (lits : List Int) (value? : Option Int) :
    Except HErr Int :=
  match value? with
  | none => .error .typeError
  | some v =>
      if inRangeI w sgn v then
        if lits.contains v then .ok v else .error .validationError
      else .error .validationError

/-! ## Array indexing (`Array.__getitem__` / `Array.__len__`) -/

/-- `Array.__len__`: `max(min_count, len(self.value))`. -/
def arrayLen (m : Nat) (assigned : List Val) : Nat := max m assigned.length

/-- The bound guard of `Array.__getitem__`:
`size.stop is not None and idx >= size.stop`. -/
def idxAtOrBeyondMax (M : Option Nat) (i : Int) : Bool :=
  match M with
  | none => false
  | some stp => decide (i ≥ (stp : Int))

/-- `Array.__getitem__` on an instance holding `assigned` elements: a
negative index is re-based with `len(self) - idx` as written; an index
at or beyond a bounded `max_count` raises `IndexError`; otherwise
`self.value[idx]` is returned, its `IndexError` (index at or past the
assigned length) yielding a copy of the element serializer's default. -/
def arrayGetItem (m : Nat) (M : Option Nat) (e : Codec) (assigned : List Val)
    (idx : Int) : Except HErr Val :=
  let idx' : Int := if idx < 0 then (arrayLen m assigned : Int) - idx else idx
  if decide (idx' < 0) || idxAtOrBeyondMax M idx' then .error .indexError
  else
    match assigned.get? idx'.toNat with
    | some v => .ok v
    | none => .ok (defaultVal e)

/-! ## Basic size and validity lemmas -/

theorem isVst_array (m : Nat) (M : Option Nat) (e : Codec) :
    isVst (.array m M e) = false ↔ M = some m := by
  cases M with
  | none => simp [isVst, sizeDiffers]
  | some k =>
    by_cases h : k = m <;> simp [isVst, sizeDiffers, h]

/-- A non-variable codec's actual size for a valid value is its fixed
size. -/
theorem byteSizeVal_fixed (c : Codec) (v : Val) (hw : WF c = true)
    (hnv : isVst c = false) (hv : validate c v = true) :
    byteSizeVal c v = fixedSize c := by
  cases c with
  | scalar w sgn be d hid => cases v <;> simp [byteSizeVal, fixedSize]
  | enumC w sgn be d lits => cases v <;> simp [byteSizeVal, fixedSize]
  | array m M e =>
    have hM : M = some m := (isVst_array m M e).mp hnv
    subst hM
    cases v with
    | seq xs =>
      rw [validate] at hv
      have hlen : xs.length ≤ m := by
        simp only [Bool.and_eq_true, maxLenOk, decide_eq_true_eq] at hv
        exact hv.1
      simp [byteSizeVal, fixedSize, Nat.max_eq_left hlen]
    | int n =>
      rw [validate.eq_def] at hv
      simp at hv
    | strukt fs =>
      rw [validate.eq_def] at hv
      simp at hv
  | strukt ms =>
    have hlv : lastIsVst ms = false := by rwa [isVst] at hnv
    cases v <;> simp [byteSizeVal, fixedSize, hlv]

/-- The actual size is never below the fixed size. -/
theorem fixedSize_le_byteSizeVal (c : Codec) (v : Val) (hv : validate c v = true) :
    fixedSize c ≤ byteSizeVal c v := by
  cases c with
  | scalar w sgn be d hid => cases v <;> simp [byteSizeVal, fixedSize]
  | enumC w sgn be d lits => cases v <;> simp [byteSizeVal, fixedSize]
  | array m M e =>
    cases v with
    | seq xs =>
      simp only [byteSizeVal, fixedSize]
      exact Nat.mul_le_mul_right _ (Nat.le_max_left _ _)
    | int n => simp [byteSizeVal, fixedSize]
    | strukt fs => simp [byteSizeVal, fixedSize]
  | strukt ms =>
    cases v <;> simp [byteSizeVal, fixedSize]

mutual

/-- The default value of a well-formed codec passes validation
(`Serializer.__init__` validated it when the schema instance was
built). -/
theorem validate_defaultVal (c : Codec) (hw : WF c = true) :
    validate c (defaultVal c) = true := by
  cases c with
  | scalar w sgn be d hid =>
    rw [WF] at hw
    simp only [Bool.and_eq_true] at hw
    simp [defaultVal, validate, hw.2]
  | enumC w sgn be d lits =>
    rw [WF] at hw
    simp only [Bool.and_eq_true] at hw
    have hd : d ∈ lits := by
      have := hw.1.2
      simpa using this
    simp [defaultVal, validate, hw.1.1.2, hd]
  | array m M e =>
    rw [defaultVal, validate]
    cases M <;> simp [validateList, maxLenOk]
  | strukt ms =>
    rw [defaultVal, validate]
    exact validateFields_defaultFields ms (by rwa [WF] at hw)

theorem validateFields_defaultFields (ms : List (MKey × Codec))
    (hw : membersWF ms = true) :
    validateFields ms (defaultFields ms) = true := by
  match ms with
  | [] =>
    rw [defaultFields, validateFields]
    rfl
  | (k, c) :: rest =>
    rw [membersWF] at hw
    simp only [Bool.and_eq_true] at hw
    rw [defaultFields, validateFields]
    by_cases hh : isHiddenC c
    · simp only [hh, if_true]
      exact validateFields_defaultFields rest hw.2
    · simp only [hh, Bool.false_eq_true, if_false]
      rw [validateVis, Bool.and_eq_true]
      exact ⟨validate_defaultVal c hw.1.1.1.1.1, validateFields_defaultFields rest hw.2⟩

end

/-! ## Encoding length -/

theorem length_flatten_replicate (k : Nat) (l : List Nat) :
    ((List.replicate k l).flatten).length = k * l.length := by
  induction k with
  | zero => simp
  | succ k ih =>
    simp [List.replicate_succ, ih]
    ring

theorem encodeList_eq_flatten_map (e : Codec) (xs : List Val) :
    encodeList e xs = (xs.map (encodeVal e)).flatten := by
  induction xs with
  | nil => simp [encodeList]
  | cons x xs ih => simp [encodeList, ih]

mutual

/-- The encoding of a valid value occupies exactly `byte_size(value)`
bytes (total length of `serialize_value`'s output). -/
theorem length_encodeVal (c : Codec) (v : Val) (hw : WF c = true)
    (hv : validate c v = true) :
    (encodeVal c v).length = byteSizeVal c v := by
  cases c with
  | scalar w sgn be d hid =>
    cases v with
    | int n => rw [encodeVal, byteSizeVal, length_packInt]
    | seq xs => rw [validate] at hv; exact absurd hv (by simp)
    | strukt fs => rw [validate] at hv; exact absurd hv (by simp)
  | enumC w sgn be d lits =>
    cases v with
    | int n => rw [encodeVal, byteSizeVal, length_packInt]
    | seq xs => rw [validate] at hv; exact absurd hv (by simp)
    | strukt fs => rw [validate] at hv; exact absurd hv (by simp)
  | array m M e =>
    cases v with
    | int n => rw [validate] at hv; exact absurd hv (by simp)
    | strukt fs => rw [validate] at hv; exact absurd hv (by simp)
    | seq xs =>
      rw [WF] at hw
      simp only [Bool.and_eq_true, Bool.not_eq_eq_eq_not, Bool.not_true,
        decide_eq_true_eq] at hw
      obtain ⟨⟨⟨⟨hwe, hnve⟩, hse⟩, _⟩, _⟩ := hw
      rw [validate] at hv
      simp only [Bool.and_eq_true] at hv
      have hser : (encodeList e xs).length = xs.length * fixedSize e :=
        length_encodeList e xs hwe hnve hv.2
      have hpad : (encodeVal e (defaultVal e)).length = fixedSize e := by
        rw [length_encodeVal e (defaultVal e) hwe (validate_defaultVal e hwe)]
        exact byteSizeVal_fixed e (defaultVal e) hwe hnve (validate_defaultVal e hwe)
      rw [encodeVal, byteSizeVal]
      simp only [List.length_append, hser, length_flatten_replicate, hpad]
      have hmx : xs.length ≤ max m xs.length := Nat.le_max_right _ _
      have hms : xs.length * fixedSize e ≤ max m xs.length * fixedSize e :=
        Nat.mul_le_mul_right _ hmx
      rw [← Nat.sub_mul, Nat.mul_div_cancel _ hse, Nat.sub_mul]
      omega
  | strukt ms =>
    cases v with
    | int n => rw [validate] at hv; exact absurd hv (by simp)
    | seq xs => rw [validate] at hv; exact absurd hv (by simp)
    | strukt fs =>
      rw [WF] at hw
      rw [validate] at hv
      rw [encodeVal, byteSizeVal]
      exact length_encodeFields ms fs hw hv

/-- Every element of a valid array value encodes to the element's fixed
size, so the element encodings总 occupy `len * element_size` bytes. -/
theorem length_encodeList (e : Codec) (xs : List Val) (hw : WF e = true)
    (hnv : isVst e = false) (hv : validateList e xs = true) :
    (encodeList e xs).length = xs.length * fixedSize e := by
  match xs with
  | [] => rw [encodeList]; simp
  | x :: xs =>
    rw [validateList] at hv
    simp only [Bool.and_eq_true] at hv
    rw [encodeList]
    simp only [List.length_append]
    rw [length_encodeVal e x hw hv.1, byteSizeVal_fixed e x hw hnv hv.1,
      length_encodeList e xs hw hnv hv.2]
    simp [Nat.succ_mul]
    omega

theorem length_encodeFields (ms : List (MKey × Codec)) (fs : List Val)
    (hw : membersWF ms = true) (hv : validateFields ms fs = true) :
    (encodeFields ms fs).length
      = fixedSizeM ms + (if lastIsVst ms then lastDiff ms fs else 0) := by
  match ms with
  | [] => rw [encodeFields, fixedSizeM, lastIsVst]; simp
  | (k, c) :: rest =>
    rw [membersWF] at hw
    simp only [Bool.and_eq_true, Bool.or_eq_true, Bool.not_eq_eq_eq_not,
      Bool.not_true] at hw
    obtain ⟨⟨⟨⟨⟨hwc, _⟩, hlastv⟩, hhv⟩, _⟩, hwrest⟩ := hw
    rw [validateFields] at hv
    rw [encodeFields, fixedSizeM]
    by_cases hh : isHiddenC c
    · simp only [hh, if_true] at hv ⊢
      have hcnv : isVst c = false := by
        rcases hhv with h | h
        · rw [hh] at h; exact absurd h (by simp)
        · exact h
      have hlen : (encodeVal c (defaultVal c)).length = fixedSize c := by
        rw [length_encodeVal c (defaultVal c) hwc (validate_defaultVal c hwc),
          byteSizeVal_fixed c (defaultVal c) hwc hcnv (validate_defaultVal c hwc)]
      have ih := length_encodeFields rest fs hwrest hv
      cases rest with
      | nil =>
        rw [lastIsVst, lastDiff]
        simp only [List.length_append, hlen, ih]
        simp [lastIsVst, fixedSizeM, encodeFields, hcnv]
      | cons r rs =>
        rw [lastIsVst, lastDiff]
        simp only [List.length_append, hlen, ih, hh, if_true]
        omega
    · simp only [hh, Bool.false_eq_true, if_false] at hv ⊢
      cases fs with
      | nil => rw [validateVis] at hv; exact absurd hv (by simp)
      | cons f fs' =>
        rw [validateVis] at hv
        simp only [Bool.and_eq_true] at hv
        rw [encodeVis]
        simp only [List.length_append]
        rw [length_encodeVal c f hwc hv.1]
        have ih := length_encodeFields rest fs' hwrest hv.2
        cases rest with
        | nil =>
          have hfs' : fs' = [] := by
            rw [validateFields] at hv
            have := hv.2
            simpa [List.isEmpty_iff] using this
          subst hfs'
          rw [lastIsVst, lastDiff]
          simp only [encodeFields, List.length_nil, Nat.add_zero, fixedSizeM]
          by_cases hvc : isVst c
          · simp only [hvc, if_true]
            have hle : fixedSize c ≤ byteSizeVal c f := fixedSize_le_byteSizeVal c f hv.1
            simp [List.getLast?]
            omega
          · simp only [hvc, Bool.false_eq_true, if_false]
            rw [byteSizeVal_fixed c f hwc (by simpa using hvc) hv.1]
            omega
        | cons r rs =>
          have hcnv : isVst c = false := by
            rcases hlastv with h | h
            · exact absurd h (by simp [List.isEmpty])
            · exact h
          rw [lastIsVst, lastDiff]
          rw [byteSizeVal_fixed c f hwc hcnv hv.1, ih]
          simp only [hh, Bool.false_eq_true, if_false, List.drop_one, List.tail_cons]
          omega

end

/-! ## Chunking lemmas -/

theorem widthOk_one_le (w : Nat) (h : widthOk w = true) : 1 ≤ w := by
  rw [widthOk] at h
  simp only [Bool.or_eq_true, decide_eq_true_eq] at h
  omega

theorem chunkList_flatten (s : Nat) (hs : 0 < s) (blocks : List (List Nat))
    (hb : ∀ b ∈ blocks, b.length = s) :
    chunkList s blocks.flatten = blocks := by
  induction blocks with
  | nil => simp [chunkList]
  | cons b bs ih =>
    obtain ⟨s', rfl⟩ : ∃ s', s = s' + 1 := ⟨s - 1, by omega⟩
    have hblen : b.length = s' + 1 := hb b (List.mem_cons_self ..)
    obtain ⟨x, xs, rfl⟩ : ∃ x xs, b = x :: xs := by
      cases b with
      | nil => simp at hblen
      | cons x xs => exact ⟨x, xs, rfl⟩
    have hxs : xs.length = s' := by simpa using hblen
    rw [List.flatten_cons, List.cons_append, chunkList]
    rw [List.take_left' hxs, List.drop_left' hxs]
    rw [ih fun c hc => hb c (List.mem_cons_of_mem _ hc)]

theorem length_canonList (e : Codec) (xs : List Val) :
    (canonList e xs).length = xs.length := by
  induction xs with
  | nil => rw [canonList]
  | cons x xs ih => rw [canonList]; simp [ih]

theorem validateList_append (e : Codec) (a b : List Val) :
    validateList e (a ++ b) = (validateList e a && validateList e b) := by
  induction a with
  | nil => simp [validateList]
  | cons x xs ih =>
    rw [List.cons_append, validateList, validateList, ih]
    simp [Bool.and_assoc]

theorem validateList_replicate (e : Codec) (r : Nat) (x : Val)
    (hx : validate e x = true) : validateList e (List.replicate r x) = true := by
  induction r with
  | zero => rw [List.replicate_zero, validateList]
  | succ r ih => rw [List.replicate_succ, validateList, hx, ih]; rfl

/-- Membership version of `validateList`. -/
theorem validateList_mem (e : Codec) (xs : List Val) (x : Val)
    (hv : validateList e xs = true) (hx : x ∈ xs) : validate e x = true := by
  induction xs with
  | nil => simp at hx
  | cons y ys ih =>
    rw [validateList] at hv
    simp only [Bool.and_eq_true] at hv
    rcases List.mem_cons.mp hx with h | h
    · subst h; exact hv.1
    · exact ih hv.2 h

/-! ## Round trip: decoding an encoding yields the canonical form -/

mutual

/-- Decoding the bytes produced by encoding a valid value succeeds and
yields the decoded normal form `canon`. -/
theorem deserialize_encodeVal (c : Codec) (v : Val) (hw : WF c = true)
    (hv : validate c v = true) :
    deserialize c (encodeVal c v) = .ok (canon c v) := by
  cases c with
  | scalar w sgn be d hid =>
    cases v with
    | int n =>
      rw [WF] at hw
      simp only [Bool.and_eq_true] at hw
      rw [validate] at hv
      rw [encodeVal, deserialize, canon]
      rw [if_pos (length_packInt w be n),
        unpackInt_packInt w sgn be n (widthOk_one_le w hw.1) hv, if_pos hv]
    | seq xs => rw [validate] at hv; exact absurd hv (by simp)
    | strukt fs => rw [validate] at hv; exact absurd hv (by simp)
  | enumC w sgn be d lits =>
    cases v with
    | int n =>
      rw [WF] at hw
      simp only [Bool.and_eq_true] at hw
      rw [validate] at hv
      simp only [Bool.and_eq_true] at hv
      rw [encodeVal, deserialize, canon]
      rw [if_pos (length_packInt w be n),
        unpackInt_packInt w sgn be n (widthOk_one_le w hw.1.1.1) hv.1, if_pos hv.1]
    | seq xs => rw [validate] at hv; exact absurd hv (by simp)
    | strukt fs => rw [validate] at hv; exact absurd hv (by simp)
  | array m M e =>
    cases v with
    | int n => rw [validate] at hv; exact absurd hv (by simp)
    | strukt fs => rw [validate] at hv; exact absurd hv (by simp)
    | seq xs =>
      have hw' := hw
      rw [WF] at hw'
      simp only [Bool.and_eq_true, Bool.not_eq_eq_eq_not, Bool.not_true,
        decide_eq_true_eq] at hw'
      obtain ⟨⟨⟨⟨hwe, hnve⟩, hse⟩, _⟩, hmm⟩ := hw'
      have hv' := hv
      rw [validate] at hv'
      simp only [Bool.and_eq_true] at hv'
      have hpadv : validate e (defaultVal e) = true := validate_defaultVal e hwe
      have hpadlen : (encodeVal e (defaultVal e)).length = fixedSize e := by
        rw [length_encodeVal e (defaultVal e) hwe hpadv,
          byteSizeVal_fixed e (defaultVal e) hwe hnve hpadv]
      have hserlen : (encodeList e xs).length = xs.length * fixedSize e :=
        length_encodeList e xs hwe hnve hv'.2
      have hrem : (max m xs.length * fixedSize e - (encodeList e xs).length) / fixedSize e
          = m - xs.length := by
        rw [hserlen, ← Nat.sub_mul, Nat.mul_div_cancel _ hse]
        omega
      rw [encodeVal]
      simp only [hrem]
      have hlenbytes : (encodeList e xs
          ++ (List.replicate (m - xs.length) (encodeVal e (defaultVal e))).flatten).length
          = max m xs.length * fixedSize e := by
        rw [List.length_append, hserlen, length_flatten_replicate, hpadlen,
          ← Nat.add_mul]
        congr 1
        omega
      rw [deserialize]
      rw [if_neg (by
        rw [hlenbytes]
        have := Nat.mul_le_mul_right (fixedSize e) (Nat.le_max_left m xs.length)
        omega)]
      have htl : tooLong M (encodeList e xs
          ++ (List.replicate (m - xs.length) (encodeVal e (defaultVal e))).flatten).length
          (fixedSize e) = false := by
        rw [hlenbytes]
        cases M with
        | none => rw [tooLong]
        | some k =>
          rw [tooLong]
          rw [minLeMax] at hmm
          simp only [decide_eq_true_eq] at hmm
          have hxk : xs.length ≤ k := by
            have := hv'.1
            rw [maxLenOk] at this
            simpa using this
          have hmax : max m xs.length ≤ k := by omega
          simp only [decide_eq_false_iff_not, not_lt]
          exact Nat.mul_le_mul_right _ hmax
      rw [htl]
      simp only [Bool.false_eq_true, if_false]
      rw [if_neg (by rw [hlenbytes]; simp [Nat.mul_mod_left])]
      have hchunks : chunkList (fixedSize e)
          (encodeList e xs
            ++ (List.replicate (m - xs.length) (encodeVal e (defaultVal e))).flatten)
          = xs.map (encodeVal e)
            ++ List.replicate (m - xs.length) (encodeVal e (defaultVal e)) := by
        rw [encodeList_eq_flatten_map, ← List.flatten_append]
        refine chunkList_flatten (fixedSize e) hse _ ?_
        intro b hb
        rw [List.mem_append] at hb
        rcases hb with hb | hb
        · obtain ⟨x, hx, rfl⟩ := List.mem_map.mp hb
          have hvx : validate e x = true := validateList_mem e xs x hv'.2 hx
          rw [length_encodeVal e x hwe hvx, byteSizeVal_fixed e x hwe hnve hvx]
        · rw [List.eq_of_mem_replicate hb, hpadlen]
      rw [hchunks]
      rw [decodeChunks_blocks e xs (m - xs.length) hwe hnve hv'.2]
      rw [canon]
  | strukt ms =>
    cases v with
    | int n => rw [validate] at hv; exact absurd hv (by simp)
    | seq xs => rw [validate] at hv; exact absurd hv (by simp)
    | strukt fs =>
      have hw' := hw
      rw [WF] at hw'
      have hv' := hv
      rw [validate] at hv'
      rw [encodeVal, deserialize]
      rw [if_neg (by
        rw [length_encodeFields ms fs hw' hv']
        omega)]
      rw [decodeMembers_encodeFields ms fs hw' hv']
      simp [validate_canonFields ms fs hw' hv', canon]
termination_by (sizeOf c, 0, sizeOf v)

/-- The canonical decoded form of a valid value is itself valid (the
re-validation performed by the constructor in `Struct.deserialize`
succeeds on round-tripped data). -/
theorem validate_canon (c : Codec) (v : Val) (hw : WF c = true)
    (hv : validate c v = true) : validate c (canon c v) = true := by
  cases c with
  | scalar w sgn be d hid => rw [canon]; exact hv
  | enumC w sgn be d lits => rw [canon]; exact hv
  | array m M e =>
    cases v with
    | int n => rw [validate] at hv; exact absurd hv (by simp)
    | strukt fs => rw [validate] at hv; exact absurd hv (by simp)
    | seq xs =>
      have hw' := hw
      rw [WF] at hw'
      simp only [Bool.and_eq_true, Bool.not_eq_eq_eq_not, Bool.not_true,
        decide_eq_true_eq] at hw'
      obtain ⟨⟨⟨⟨hwe, hnve⟩, hse⟩, _⟩, hmm⟩ := hw'
      rw [validate] at hv
      simp only [Bool.and_eq_true] at hv
      rw [canon, validate]
      rw [Bool.and_eq_true]
      constructor
      · cases M with
        | none => rw [maxLenOk]
        | some k =>
          rw [minLeMax] at hmm
          simp only [decide_eq_true_eq] at hmm
          have hxk : xs.length ≤ k := by
            have := hv.1
            rw [maxLenOk] at this
            simpa using this
          rw [maxLenOk]
          simp only [decide_eq_true_eq]
          rw [List.length_append, length_canonList, List.length_replicate]
          omega
      · rw [validateList_append, Bool.and_eq_true]
        refine ⟨validate_canonList e xs hwe hv.2, ?_⟩
        exact validateList_replicate e (m - xs.length) _
          (validate_canon e (defaultVal e) hwe (validate_defaultVal e hwe))
  | strukt ms =>
    cases v with
    | int n => rw [validate] at hv; exact absurd hv (by simp)
    | seq xs => rw [validate] at hv; exact absurd hv (by simp)
    | strukt fs =>
      rw [WF] at hw
      rw [validate] at hv
      rw [canon, validate]
      exact validate_canonFields ms fs hw hv
termination_by (sizeOf c, 0, sizeOf v)

theorem validate_canonList (e : Codec) (xs : List Val) (hw : WF e = true)
    (hv : validateList e xs = true) :
    validateList e (canonList e xs) = true := by
  match xs with
  | [] => rw [canonList, validateList]
  | x :: xs =>
    rw [validateList] at hv
    simp only [Bool.and_eq_true] at hv
    rw [canonList, validateList]
    rw [validate_canon e x hw hv.1, validate_canonList e xs hw hv.2]
    rfl
termination_by (sizeOf e, 1, sizeOf xs)

theorem validate_canonFields (ms : List (MKey × Codec)) (fs : List Val)
    (hw : membersWF ms = true) (hv : validateFields ms fs = true) :
    validateFields ms (canonFields ms fs) = true := by
  match ms with
  | [] => rw [canonFields, validateFields]; rfl
  | (k, c) :: rest =>
    rw [membersWF] at hw
    simp only [Bool.and_eq_true] at hw
    obtain ⟨⟨⟨⟨⟨hwc, _⟩, _⟩, _⟩, _⟩, hwrest⟩ := hw
    rw [validateFields] at hv
    rw [canonFields, validateFields]
    by_cases hh : isHiddenC c
    · simp only [hh, if_true] at hv ⊢
      exact validate_canonFields rest fs hwrest hv
    · simp only [hh, Bool.false_eq_true, if_false] at hv ⊢
      cases fs with
      | nil => rw [validateVis] at hv; exact absurd hv (by simp)
      | cons f fs' =>
        rw [validateVis] at hv
        simp only [Bool.and_eq_true] at hv
        rw [canonVis, validateVis]
        rw [validate_canon c f hwc hv.1, validate_canonFields rest fs' hwrest hv.2]
        rfl
termination_by (sizeOf ms, 1, sizeOf fs)

/-- Decoding the chunk sequence consisting of the element encodings
followed by `r` default-element encodings yields the canonical elements
followed by `r` canonical defaults. -/
theorem decodeChunks_blocks (e : Codec) (xs : List Val) (r : Nat)
    (hw : WF e = true) (hnv : isVst e = false) (hv : validateList e xs = true) :
    decodeChunks e (xs.map (encodeVal e)
        ++ List.replicate r (encodeVal e (defaultVal e)))
      = .ok (canonList e xs ++ List.replicate r (canon e (defaultVal e))) := by
  match xs with
  | [] =>
    rw [canonList]
    match r with
    | 0 => rw [List.replicate_zero, List.replicate_zero]; simp [decodeChunks]
    | r' + 1 =>
      rw [List.replicate_succ, List.replicate_succ]
      simp only [List.map_nil, List.nil_append]
      rw [decodeChunks]
      rw [deserialize_encodeVal e (defaultVal e) hw (validate_defaultVal e hw)]
      have ih := decodeChunks_blocks e [] r' hw hnv (by rw [validateList])
      simp only [List.map_nil, List.nil_append, canonList] at ih
      rw [ih]
  | x :: xs' =>
    rw [validateList] at hv
    simp only [Bool.and_eq_true] at hv
    rw [List.map_cons, List.cons_append, decodeChunks]
    rw [deserialize_encodeVal e x hw hv.1]
    rw [decodeChunks_blocks e xs' r hw hnv hv.2]
    rw [canonList]
    rfl
termination_by (sizeOf e, 1, sizeOf xs + r)

/-- Decoding the concatenated member encodings recovers the canonical
visible fields (hidden members decode and are dropped). -/
theorem decodeMembers_encodeFields (ms : List (MKey × Codec)) (fs : List Val)
    (hw : membersWF ms = true) (hv : validateFields ms fs = true) :
    decodeMembers ms (encodeFields ms fs) = .ok (canonFields ms fs) := by
  match ms with
  | [] => rw [encodeFields, decodeMembers, canonFields]
  | (k, c) :: rest =>
    rw [membersWF] at hw
    simp only [Bool.and_eq_true, Bool.or_eq_true, Bool.not_eq_eq_eq_not,
      Bool.not_true] at hw
    obtain ⟨⟨⟨⟨⟨hwc, _⟩, hlastv⟩, hhnv⟩, _⟩, hwrest⟩ := hw
    rw [validateFields] at hv
    rw [encodeFields, decodeMembers, canonFields]
    by_cases hh : isHiddenC c
    · simp only [hh, if_true] at hv ⊢
      have hcnv : isVst c = false := by
        rcases hhnv with h | h
        · rw [hh] at h; exact absurd h (by simp)
        · exact h
      have hdv : validate c (defaultVal c) = true := validate_defaultVal c hwc
      have hlen : (encodeVal c (defaultVal c)).length = fixedSize c := by
        rw [length_encodeVal c (defaultVal c) hwc hdv,
          byteSizeVal_fixed c (defaultVal c) hwc hcnv hdv]
      simp only [hcnv, Bool.false_eq_true, if_false]
      rw [List.take_left' hlen]
      rw [deserialize_encodeVal c (defaultVal c) hwc hdv]
      rw [hlen, ← hlen, List.drop_left]
      rw [decodeMembers_encodeFields rest fs hwrest hv]
    · simp only [hh, Bool.false_eq_true, if_false] at hv ⊢
      cases fs with
      | nil => rw [validateVis] at hv; exact absurd hv (by simp)
      | cons f fs' =>
        rw [validateVis] at hv
        simp only [Bool.and_eq_true] at hv
        rw [encodeVis, canonVis]
        cases rest with
        | nil =>
          have hfs' : fs' = [] := by
            rw [validateFields] at hv
            have := hv.2
            simpa [List.isEmpty_iff] using this
          subst hfs'
          rw [encodeFields, List.append_nil]
          by_cases hvc : isVst c
          · simp only [hvc, if_true]
            rw [deserialize_encodeVal c f hwc hv.1]
            rw [List.drop_length, decodeMembers, canonFields]
          · simp only [hvc, Bool.false_eq_true, if_false]
            have hlenf : (encodeVal c f).length = fixedSize c := by
              rw [length_encodeVal c f hwc hv.1,
                byteSizeVal_fixed c f hwc (by simpa using hvc) hv.1]
            rw [← hlenf, List.take_length]
            rw [deserialize_encodeVal c f hwc hv.1]
            rw [List.drop_length, decodeMembers, canonFields]
        | cons r rs =>
          have hcnv : isVst c = false := by
            rcases hlastv with h | h
            · exact absurd h (by simp [List.isEmpty])
            · exact h
          have hlenf : (encodeVal c f).length = fixedSize c := by
            rw [length_encodeVal c f hwc hv.1,
              byteSizeVal_fixed c f hwc hcnv hv.1]
          simp only [hcnv, Bool.false_eq_true, if_false]
          rw [List.take_left' hlenf]
          rw [deserialize_encodeVal c f hwc hv.1]
          rw [hlenf, ← hlenf, List.drop_left]
          rw [decodeMembers_encodeFields (r :: rs) fs' hwrest hv.2]
termination_by (sizeOf ms, 1, sizeOf fs)

end

/-! ## Comparison of a value with its decoded normal form -/

mutual

/-- `compare` accepts the decoded normal form of a valid value, provided
the value is padding-stable (`fullV`): the member/element comparisons the
source performs — codec compare for struct members, plain `==` for array
elements — all succeed. -/
theorem compare_canon (c : Codec) (v : Val) (hw : WF c = true)
    (hv : validate c v = true) (hf : fullV c v = true) :
    compareC c v (canon c v) = true := by
  cases c with
  | scalar w sgn be d hid =>
    cases v with
    | int n => rw [canon, compareC]; simp
    | seq xs => rw [validate] at hv; exact absurd hv (by simp)
    | strukt fs => rw [validate] at hv; exact absurd hv (by simp)
  | enumC w sgn be d lits =>
    cases v with
    | int n => rw [canon, compareC]; simp
    | seq xs => rw [validate] at hv; exact absurd hv (by simp)
    | strukt fs => rw [validate] at hv; exact absurd hv (by simp)
  | array m M e =>
    cases v with
    | int n => rw [validate] at hv; exact absurd hv (by simp)
    | strukt fs => rw [validate] at hv; exact absurd hv (by simp)
    | seq xs =>
      have hw' := hw
      rw [WF] at hw'
      simp only [Bool.and_eq_true, Bool.not_eq_eq_eq_not, Bool.not_true,
        decide_eq_true_eq] at hw'
      obtain ⟨⟨⟨⟨hwe, hnve⟩, hse⟩, _⟩, hmm⟩ := hw'
      rw [validate] at hv
      simp only [Bool.and_eq_true] at hv
      rw [fullV] at hf
      simp only [Bool.and_eq_true, Bool.or_eq_true, decide_eq_true_eq] at hf
      rw [canon, compareC, Bool.and_eq_true]
      constructor
      · cases M with
        | none => rw [cmpLenOk]
        | some k =>
          rw [minLeMax] at hmm
          simp only [decide_eq_true_eq] at hmm
          have hxk : xs.length ≤ k := by
            have := hv.1
            rw [maxLenOk] at this
            simpa using this
          rw [cmpLenOk]
          simp only [decide_eq_true_eq]
          rw [List.length_append, length_canonList, List.length_replicate]
          omega
      · exact zipCmp_canon e xs (m - xs.length) hwe hv.2 hf.2 (by
          rcases hf.1 with h | h
          · left; omega
          · right; exact h)
  | strukt ms =>
    cases v with
    | int n => rw [validate] at hv; exact absurd hv (by simp)
    | seq xs => rw [validate] at hv; exact absurd hv (by simp)
    | strukt fs =>
      rw [WF] at hw
      rw [validate] at hv
      rw [fullV] at hf
      rw [canon, compareC]
      exact compareFields_canon ms fs hw hv hf
termination_by (sizeOf c, 0, sizeOf v)

/-- Plain Python `==` accepts the decoded normal form of a valid
padding-stable value at an array-element position. -/
theorem pyEq_canon (e : Codec) (x : Val) (hw : WF e = true)
    (hv : validate e x = true) (hf : fullE e x = true) :
    pyEq e x (canon e x) = true := by
  cases e with
  | scalar w sgn be d hid =>
    cases x with
    | int n => rw [canon, pyEq]; simp
    | seq xs => rw [validate] at hv; exact absurd hv (by simp)
    | strukt fs => rw [validate] at hv; exact absurd hv (by simp)
  | enumC w sgn be d lits =>
    cases x with
    | int n => rw [canon, pyEq]; simp
    | seq xs => rw [validate] at hv; exact absurd hv (by simp)
    | strukt fs => rw [validate] at hv; exact absurd hv (by simp)
  | array m M e' =>
    cases x with
    | int n => rw [validate] at hv; exact absurd hv (by simp)
    | strukt fs => rw [validate] at hv; exact absurd hv (by simp)
    | seq xs =>
      have hw' := hw
      rw [WF] at hw'
      simp only [Bool.and_eq_true, Bool.not_eq_eq_eq_not, Bool.not_true,
        decide_eq_true_eq] at hw'
      obtain ⟨⟨⟨⟨hwe, hnve⟩, hse⟩, _⟩, hmm⟩ := hw'
      rw [validate] at hv
      simp only [Bool.and_eq_true] at hv
      rw [fullE] at hf
      simp only [Bool.and_eq_true, decide_eq_true_eq] at hf
      have hzero : m - xs.length = 0 := by omega
      rw [canon, hzero, List.replicate_zero, List.append_nil, pyEq]
      exact pyEqList_canon e' xs hwe hv.2 hf.2
  | strukt ms =>
    cases x with
    | int n => rw [validate] at hv; exact absurd hv (by simp)
    | seq xs => rw [validate] at hv; exact absurd hv (by simp)
    | strukt fs =>
      rw [WF] at hw
      rw [validate] at hv
      rw [fullE, fullV] at hf
      rw [canon, pyEq, compareC]
      exact compareFields_canon ms fs hw hv hf
termination_by (sizeOf e, 1, sizeOf x)

theorem zipCmp_canon (e : Codec) (xs : List Val) (r : Nat) (hw : WF e = true)
    (hv : validateList e xs = true) (hf : fullEList e xs = true)
    (hr : r = 0 ∨ fullE e (defaultVal e) = true) :
    zipCmp e xs (canonList e xs ++ List.replicate r (canon e (defaultVal e)))
      = true := by
  match xs with
  | [] =>
    rw [canonList, List.nil_append]
    match r with
    | 0 => rw [List.replicate_zero, zipCmp]
    | r' + 1 =>
      have hfd : fullE e (defaultVal e) = true := by
        rcases hr with h | h
        · omega
        · exact h
      rw [List.replicate_succ, zipCmp, Bool.and_eq_true]
      refine ⟨pyEq_canon e (defaultVal e) hw (validate_defaultVal e hw) hfd, ?_⟩
      have ih := zipCmp_canon e [] r' hw (by rw [validateList]) (by rw [fullEList])
        (Or.inr hfd)
      rw [canonList, List.nil_append] at ih
      exact ih
  | x :: xs' =>
    rw [validateList] at hv
    rw [fullEList] at hf
    simp only [Bool.and_eq_true] at hv hf
    rw [canonList, List.cons_append, zipCmp, Bool.and_eq_true]
    exact ⟨pyEq_canon e x hw hv.1 hf.1, zipCmp_canon e xs' r hw hv.2 hf.2 hr⟩
termination_by (sizeOf e, 2, sizeOf xs + r)

theorem pyEqList_canon (e : Codec) (xs : List Val) (hw : WF e = true)
    (hv : validateList e xs = true) (hf : fullEList e xs = true) :
    pyEqList e xs (canonList e xs) = true := by
  match xs with
  | [] => rw [canonList, pyEqList]
  | x :: xs' =>
    rw [validateList] at hv
    rw [fullEList] at hf
    simp only [Bool.and_eq_true] at hv hf
    rw [canonList, pyEqList]
    rw [pyEq_canon e x hw hv.1 hf.1, pyEqList_canon e xs' hw hv.2 hf.2]
    rfl
termination_by (sizeOf e, 2, sizeOf xs)

theorem compareFields_canon (ms : List (MKey × Codec)) (fs : List Val)
    (hw : membersWF ms = true) (hv : validateFields ms fs = true)
    (hf : fullFields ms fs = true) :
    compareFieldsC ms fs (canonFields ms fs) = true := by
  match ms with
  | [] => rw [compareFieldsC]
  | (k, c) :: rest =>
    rw [membersWF] at hw
    simp only [Bool.and_eq_true] at hw
    obtain ⟨⟨⟨⟨⟨hwc, _⟩, _⟩, _⟩, _⟩, hwrest⟩ := hw
    rw [validateFields] at hv
    rw [fullFields] at hf
    rw [canonFields, compareFieldsC]
    by_cases hh : isHiddenC c
    · simp only [hh, if_true] at hv hf ⊢
      exact compareFields_canon rest fs hwrest hv hf
    · simp only [hh, Bool.false_eq_true, if_false] at hv hf ⊢
      cases fs with
      | nil => rw [validateVis] at hv; exact absurd hv (by simp)
      | cons f fs' =>
        rw [validateVis] at hv
        rw [fullVis] at hf
        simp only [Bool.and_eq_true] at hv hf
        rw [canonVis, compareVis]
        rw [compare_canon c f hwc hv.1 hf.1,
          compareFields_canon rest fs' hwrest hv.2 hf.2]
        rfl
termination_by (sizeOf ms, 0, sizeOf fs)

end

/-! ## Claim C1: round trip -/

/-- C1: for every codec type (scalar, array, struct or enum, as modelled)
and every value accepted by `validate`, decoding the bytes produced by
encoding the value succeeds and yields a value equal to it under the
codec\'s compare — amended with the padding-stability proviso `fullV`
(array elements are compared with plain `==`, so sequences nested inside
arrays, including the implicit padding defaults, must be fully
populated). -/
theorem C1_round_trip (c : Codec) (v : Val) (hw : WF c = true)
    (hv : validate c v = true) (hf : fullV c v = true) :
    deserialize c (encodeVal c v) = .ok (canon c v)
      ∧ compareC c v (canon c v) = true :=
  ⟨deserialize_encodeVal c v hw hv, compare_canon c v hw hv hf⟩

/-- C1 counterexample: `Array[1, Array[2, u8]]` with the valid value `()`
(an array shorter than `min_count`, exactly the padded case the claim
includes).  Encoding pads with one default inner array, decoding yields
`((0, 0),)`, and the codec\'s compare rejects it against the original
value, because `Array._heracles_compare_` checks the padded element with
plain `==` (`() == (0, 0)` is `False`), not with the inner codec\'s
padding-tolerant compare. -/
theorem C1_counterexample :
    WF (Codec.array 1 (some 1) (Codec.array 2 (some 2) u8c)) = true
    ∧ validate (Codec.array 1 (some 1) (Codec.array 2 (some 2) u8c)) (Val.seq []) = true
    ∧ deserialize (Codec.array 1 (some 1) (Codec.array 2 (some 2) u8c))
        (encodeVal (Codec.array 1 (some 1) (Codec.array 2 (some 2) u8c)) (Val.seq []))
      = .ok (Val.seq [Val.seq [Val.int 0, Val.int 0]])
    ∧ compareC (Codec.array 1 (some 1) (Codec.array 2 (some 2) u8c))
        (Val.seq []) (Val.seq [Val.seq [Val.int 0, Val.int 0]]) = false := by
  refine ⟨?_, ?_, ?_, ?_⟩
  · simp [WF, u8c, isVst, sizeDiffers, isHiddenC, fixedSize, minLeMax, widthOk,
      inRangeI, half256]
  · simp [validate, maxLenOk, validateList]
  · simp [encodeVal, encodeList, defaultVal, fixedSize, u8c, deserialize,
      tooLong, chunkList, decodeChunks, unpackInt, decodeLE, inRangeI, half256,
      packInt, encodeLE]
  · simp [compareC, cmpLenOk, zipCmp, pyEq, defaultVal, pyEqList]

/-- C1 witness: a struct with a scalar member, a hidden `PadByte` member,
an enum member, a fixed array member holding fewer elements than its
count, and a variable-length tail array — the amended round trip holds at
this instance. -/
theorem C1_round_trip_witness :
    WF (Codec.strukt [(MKey.name "a", u8c),
        (MKey.hidden 0, Codec.scalar 1 false false 0 true),
        (MKey.name "e", Codec.enumC 1 false false 0 [0, 1]),
        (MKey.name "arr", Codec.array 3 (some 3) u8c),
        (MKey.name "payload", Codec.array 0 (some 16) u8c)]) = true
    ∧ validate (Codec.strukt [(MKey.name "a", u8c),
        (MKey.hidden 0, Codec.scalar 1 false false 0 true),
        (MKey.name "e", Codec.enumC 1 false false 0 [0, 1]),
        (MKey.name "arr", Codec.array 3 (some 3) u8c),
        (MKey.name "payload", Codec.array 0 (some 16) u8c)])
        (Val.strukt [Val.int 7, Val.int 1, Val.seq [Val.int 9],
          Val.seq [Val.int 1, Val.int 2]]) = true
    ∧ fullV (Codec.strukt [(MKey.name "a", u8c),
        (MKey.hidden 0, Codec.scalar 1 false false 0 true),
        (MKey.name "e", Codec.enumC 1 false false 0 [0, 1]),
        (MKey.name "arr", Codec.array 3 (some 3) u8c),
        (MKey.name "payload", Codec.array 0 (some 16) u8c)])
        (Val.strukt [Val.int 7, Val.int 1, Val.seq [Val.int 9],
          Val.seq [Val.int 1, Val.int 2]]) = true
    ∧ (deserialize (Codec.strukt [(MKey.name "a", u8c),
          (MKey.hidden 0, Codec.scalar 1 false false 0 true),
          (MKey.name "e", Codec.enumC 1 false false 0 [0, 1]),
          (MKey.name "arr", Codec.array 3 (some 3) u8c),
          (MKey.name "payload", Codec.array 0 (some 16) u8c)])
        (encodeVal (Codec.strukt [(MKey.name "a", u8c),
          (MKey.hidden 0, Codec.scalar 1 false false 0 true),
          (MKey.name "e", Codec.enumC 1 false false 0 [0, 1]),
          (MKey.name "arr", Codec.array 3 (some 3) u8c),
          (MKey.name "payload", Codec.array 0 (some 16) u8c)])
          (Val.strukt [Val.int 7, Val.int 1, Val.seq [Val.int 9],
            Val.seq [Val.int 1, Val.int 2]]))
        = .ok (canon (Codec.strukt [(MKey.name "a", u8c),
            (MKey.hidden 0, Codec.scalar 1 false false 0 true),
            (MKey.name "e", Codec.enumC 1 false false 0 [0, 1]),
            (MKey.name "arr", Codec.array 3 (some 3) u8c),
            (MKey.name "payload", Codec.array 0 (some 16) u8c)])
            (Val.strukt [Val.int 7, Val.int 1, Val.seq [Val.int 9],
              Val.seq [Val.int 1, Val.int 2]]))
        ∧ compareC (Codec.strukt [(MKey.name "a", u8c),
            (MKey.hidden 0, Codec.scalar 1 false false 0 true),
            (MKey.name "e", Codec.enumC 1 false false 0 [0, 1]),
            (MKey.name "arr", Codec.array 3 (some 3) u8c),
            (MKey.name "payload", Codec.array 0 (some 16) u8c)])
            (Val.strukt [Val.int 7, Val.int 1, Val.seq [Val.int 9],
              Val.seq [Val.int 1, Val.int 2]])
            (canon (Codec.strukt [(MKey.name "a", u8c),
              (MKey.hidden 0, Codec.scalar 1 false false 0 true),
              (MKey.name "e", Codec.enumC 1 false false 0 [0, 1]),
              (MKey.name "arr", Codec.array 3 (some 3) u8c),
              (MKey.name "payload", Codec.array 0 (some 16) u8c)])
              (Val.strukt [Val.int 7, Val.int 1, Val.seq [Val.int 9],
                Val.seq [Val.int 1, Val.int 2]])) = true) := by
  refine ⟨?_, ?_, ?_, C1_round_trip _ _ ?_ ?_ ?_⟩ <;>
    simp [WF, membersWF, u8c, keyHidden, isHiddenC, isVst, sizeDiffers,
      lastIsVst, keyFresh, hasVisibleName, widthOk, inRangeI, half256,
      litsAllOk, fixedSize, minLeMax, validate, validateFields, validateVis,
      validateList, maxLenOk, fullV, fullFields, fullVis, fullEList, fullE,
      defaultVal]

/-! ## Claim C4: array encode padding -/

/-- C4: encoding a valid array value shorter than `min_count` produces
the element encodings in order followed by exactly `min_count - len`
encodings of the element default, and the output length equals
`byte_size(value)`. -/
theorem C4_array_encode_padding (m : Nat) (M : Option Nat) (e : Codec)
    (xs : List Val) (hw : WF (Codec.array m M e) = true)
    (hv : validate (Codec.array m M e) (Val.seq xs) = true)
    (hshort : xs.length < m) :
    encodeVal (Codec.array m M e) (Val.seq xs)
      = encodeList e xs
        ++ (List.replicate (m - xs.length) (encodeVal e (defaultVal e))).flatten
    ∧ (encodeVal (Codec.array m M e) (Val.seq xs)).length
      = byteSizeVal (Codec.array m M e) (Val.seq xs) := by
  have hw' := hw
  rw [WF] at hw'
  simp only [Bool.and_eq_true, Bool.not_eq_eq_eq_not, Bool.not_true,
    decide_eq_true_eq] at hw'
  obtain ⟨⟨⟨⟨hwe, hnve⟩, hse⟩, _⟩, _⟩ := hw'
  have hv' := hv
  rw [validate] at hv'
  simp only [Bool.and_eq_true] at hv'
  have hserlen : (encodeList e xs).length = xs.length * fixedSize e :=
    length_encodeList e xs hwe hnve hv'.2
  have hrem : (max m xs.length * fixedSize e - (encodeList e xs).length) / fixedSize e
      = m - xs.length := by
    rw [hserlen, ← Nat.sub_mul, Nat.mul_div_cancel _ hse]
    omega
  refine ⟨?_, length_encodeVal (Codec.array m M e) (Val.seq xs) hw hv⟩
  rw [encodeVal]
  simp only [hrem]

/-- C4 witness: `Array[3, u8]` with value `(1, 2)` — one default-valued
element is appended and the encoding is the three bytes 1, 2, 0, matching
`byte_size`. -/
theorem C4_array_encode_padding_witness :
    (WF (Codec.array 3 (some 3) u8c) = true
      ∧ validate (Codec.array 3 (some 3) u8c)
          (Val.seq [Val.int 1, Val.int 2]) = true
      ∧ (2 : Nat) < 3)
    ∧ (encodeVal (Codec.array 3 (some 3) u8c) (Val.seq [Val.int 1, Val.int 2])
        = encodeList u8c [Val.int 1, Val.int 2]
          ++ (List.replicate 1 (encodeVal u8c (defaultVal u8c))).flatten
      ∧ (encodeVal (Codec.array 3 (some 3) u8c)
          (Val.seq [Val.int 1, Val.int 2])).length
        = byteSizeVal (Codec.array 3 (some 3) u8c) (Val.seq [Val.int 1, Val.int 2]))
    ∧ encodeVal (Codec.array 3 (some 3) u8c) (Val.seq [Val.int 1, Val.int 2])
        = [1, 2, 0] := by
  refine ⟨⟨?_, ?_, by omega⟩, ?_, ?_⟩
  · simp [WF, u8c, isVst, sizeDiffers, isHiddenC, fixedSize, minLeMax, widthOk,
      inRangeI, half256]
  · simp [validate, maxLenOk, validateList, u8c, inRangeI, half256]
  · have := C4_array_encode_padding 3 (some 3) u8c [Val.int 1, Val.int 2]
      (by simp [WF, u8c, isVst, sizeDiffers, isHiddenC, fixedSize, minLeMax,
        widthOk, inRangeI, half256])
      (by simp [validate, maxLenOk, validateList, u8c, inRangeI, half256])
      (by simp)
    simpa using this
  · simp [encodeVal, encodeList, defaultVal, fixedSize, u8c, packInt, encodeLE]

/-! ## Claim C5: variable-tail struct byte size -/

theorem lastIsVst_getLast (ms : List (MKey × Codec)) (k : MKey) (c : Codec)
    (h : ms.getLast? = some (k, c)) : lastIsVst ms = isVst c := by
  induction ms with
  | nil => simp at h
  | cons hd rest ih =>
    obtain ⟨k0, c0⟩ := hd
    cases rest with
    | nil =>
      simp only [List.getLast?_singleton, Option.some_inj] at h
      injection h with hk hc
      subst hk
      subst hc
      rw [lastIsVst]
    | cons r rs =>
      rw [List.getLast?_cons_cons] at h
      rw [lastIsVst]
      exact ih h

/-- The `diff` term of `Struct._heracles_bytesize_` is the last (visible)
member applied to the last field of the instance. -/
theorem lastDiff_spec (ms : List (MKey × Codec)) (k : MKey) (c : Codec)
    (fs : List Val) (hlast : ms.getLast? = some (k, c))
    (hw : membersWF ms = true) (hvst : isVst c = true)
    (hv : validateFields ms fs = true) :
    ∃ lf, fs.getLast? = some lf ∧ validate c lf = true
      ∧ lastDiff ms fs = byteSizeVal c lf - fixedSize c := by
  induction ms generalizing fs with
  | nil => simp at hlast
  | cons hd rest ih =>
    obtain ⟨k0, c0⟩ := hd
    rw [membersWF] at hw
    simp only [Bool.and_eq_true, Bool.or_eq_true, Bool.not_eq_eq_eq_not,
      Bool.not_true] at hw
    obtain ⟨⟨⟨⟨⟨hwc, _⟩, hlastv⟩, hhnv⟩, _⟩, hwrest⟩ := hw
    rw [validateFields] at hv
    cases rest with
    | nil =>
      simp only [List.getLast?_singleton, Option.some_inj] at hlast
      injection hlast with hk hc
      subst hk
      subst hc
      have hh : isHiddenC c0 = false := by
        rcases hhnv with h | h
        · exact h
        · rw [hvst] at h; exact absurd h (by simp)
      simp only [hh, Bool.false_eq_true, if_false] at hv
      cases fs with
      | nil => rw [validateVis] at hv; exact absurd hv (by simp)
      | cons f fs' =>
        rw [validateVis] at hv
        simp only [Bool.and_eq_true] at hv
        have hfs' : fs' = [] := by
          rw [validateFields] at hv
          have := hv.2
          simpa [List.isEmpty_iff] using this
        subst hfs'
        refine ⟨f, by simp, hv.1, ?_⟩
        rw [lastDiff]
        simp
    | cons r rs =>
      rw [List.getLast?_cons_cons] at hlast
      rw [lastDiff]
      by_cases hh : isHiddenC c0
      · simp only [hh, if_true] at hv ⊢
        exact ih fs hlast hwrest hv
      · simp only [hh, Bool.false_eq_true, if_false] at hv ⊢
        cases fs with
        | nil => rw [validateVis] at hv; exact absurd hv (by simp)
        | cons f fs' =>
          rw [validateVis] at hv
          simp only [Bool.and_eq_true] at hv
          obtain ⟨lf, hlf, hvlf, hd⟩ := ih fs' hlast hwrest hv.2
          refine ⟨lf, ?_, hvlf, ?_⟩
          · cases fs' with
            | nil => simp at hlf
            | cons g gs => rw [List.getLast?_cons_cons]; exact hlf
          · simp only [List.drop_one, List.tail_cons]
            exact hd

/-- C5: for a struct whose last member is variable, the byte size of an
instance is the fixed size (variable member at its minimum) plus the last
actual size of the last member for the corresponding field minus the
fixed size of the last member; and this equals the actual encoded length. -/
theorem C5_variable_tail_bytesize (ms : List (MKey × Codec)) (fs : List Val)
    (k : MKey) (c : Codec) (hlast : ms.getLast? = some (k, c))
    (hw : WF (Codec.strukt ms) = true)
    (hv : validate (Codec.strukt ms) (Val.strukt fs) = true)
    (hvst : isVst (Codec.strukt ms) = true) :
    byteSizeVal (Codec.strukt ms) (Val.strukt fs)
      = fixedSize (Codec.strukt ms)
        + byteSizeVal c (fs.getLast?.getD (Val.int 0)) - fixedSize c
    ∧ (encodeVal (Codec.strukt ms) (Val.strukt fs)).length
      = byteSizeVal (Codec.strukt ms) (Val.strukt fs) := by
  have hw' := hw
  rw [WF] at hw'
  have hv' := hv
  rw [validate] at hv'
  have hlv : lastIsVst ms = true := by rwa [isVst] at hvst
  have hcv : isVst c = true := by rwa [lastIsVst_getLast ms k c hlast] at hlv
  obtain ⟨lf, hlf, hvlf, hd⟩ := lastDiff_spec ms k c fs hlast hw' hcv hv'
  have hle : fixedSize c ≤ byteSizeVal c lf := fixedSize_le_byteSizeVal c lf hvlf
  constructor
  · rw [byteSizeVal, fixedSize]
    simp only [hlv, if_true, hd, hlf, Option.getD_some]
    omega
  · exact length_encodeVal (Codec.strukt ms) (Val.strukt fs) hw hv

/-- C5 witness: `S { header: u32, payload: Array[0:16, u8] }` with a
3-element payload — the instance occupies 4 + 3 = 7 bytes, matching the
formula and the encoded length. -/
theorem C5_variable_tail_bytesize_witness :
    (([(MKey.name "header", Codec.scalar 4 false false 0 false),
        (MKey.name "payload", Codec.array 0 (some 16) u8c)] :
          List (MKey × Codec)).getLast?
        = some (MKey.name "payload", Codec.array 0 (some 16) u8c)
      ∧ WF (Codec.strukt [(MKey.name "header", Codec.scalar 4 false false 0 false),
          (MKey.name "payload", Codec.array 0 (some 16) u8c)]) = true
      ∧ validate (Codec.strukt [(MKey.name "header", Codec.scalar 4 false false 0 false),
          (MKey.name "payload", Codec.array 0 (some 16) u8c)])
          (Val.strukt [Val.int 5, Val.seq [Val.int 1, Val.int 2, Val.int 3]]) = true
      ∧ isVst (Codec.strukt [(MKey.name "header", Codec.scalar 4 false false 0 false),
          (MKey.name "payload", Codec.array 0 (some 16) u8c)]) = true)
    ∧ (byteSizeVal (Codec.strukt [(MKey.name "header", Codec.scalar 4 false false 0 false),
          (MKey.name "payload", Codec.array 0 (some 16) u8c)])
        (Val.strukt [Val.int 5, Val.seq [Val.int 1, Val.int 2, Val.int 3]])
      = fixedSize (Codec.strukt [(MKey.name "header", Codec.scalar 4 false false 0 false),
            (MKey.name "payload", Codec.array 0 (some 16) u8c)])
        + byteSizeVal (Codec.array 0 (some 16) u8c)
            (([Val.int 5, Val.seq [Val.int 1, Val.int 2, Val.int 3]] :
              List Val).getLast?.getD (Val.int 0))
        - fixedSize (Codec.array 0 (some 16) u8c)
      ∧ (encodeVal (Codec.strukt [(MKey.name "header", Codec.scalar 4 false false 0 false),
            (MKey.name "payload", Codec.array 0 (some 16) u8c)])
          (Val.strukt [Val.int 5, Val.seq [Val.int 1, Val.int 2, Val.int 3]])).length
        = byteSizeVal (Codec.strukt [(MKey.name "header", Codec.scalar 4 false false 0 false),
              (MKey.name "payload", Codec.array 0 (some 16) u8c)])
            (Val.strukt [Val.int 5, Val.seq [Val.int 1, Val.int 2, Val.int 3]])) := by
  refine ⟨⟨by simp, ?_, ?_, ?_⟩,
    C5_variable_tail_bytesize _ _ (MKey.name "payload")
      (Codec.array 0 (some 16) u8c) (by simp) ?_ ?_ ?_⟩ <;>
    simp [WF, membersWF, keyHidden, isHiddenC, isVst, sizeDiffers, lastIsVst,
      keyFresh, hasVisibleName, widthOk, inRangeI, half256, fixedSize,
      minLeMax, validate, validateFields, validateVis, validateList,
      maxLenOk, u8c]

/-! ## Claim C9: array indexing past the assigned length -/

/-- C9: indexing at or past the assigned length but below a bounded
`max_count` (or anywhere past the assigned length when the bound is
open) yields the element default; indexing at or past a bounded
`max_count` raises `IndexError`. -/
theorem C9_array_indexing (m : Nat) (M : Option Nat) (e : Codec)
    (assigned : List Val) (i : Nat) :
    (assigned.length ≤ i
      → (M = none ∨ ∃ stp, M = some stp ∧ i < stp)
      → arrayGetItem m M e assigned (i : Int) = .ok (defaultVal e))
    ∧ (∀ stp, M = some stp → stp ≤ i
        → arrayGetItem m M e assigned (i : Int) = .error .indexError) := by
  constructor
  · intro hlen hM
    have hneg : ¬((i : Int) < 0) := by omega
    have hidx : idxAtOrBeyondMax M ((i : Nat) : Int) = false := by
      rcases hM with h | ⟨stp, hstp, hlt⟩
      · subst h
        rw [idxAtOrBeyondMax]
      · subst hstp
        rw [idxAtOrBeyondMax]
        simp only [ge_iff_le, decide_eq_false_iff_not, not_le]
        exact_mod_cast hlt
    simp [arrayGetItem, hneg, hidx, List.getElem?_eq_none hlen]
  · intro stp hstp hge
    subst hstp
    have hneg : ¬((i : Int) < 0) := by omega
    have hidx : idxAtOrBeyondMax (some stp) ((i : Nat) : Int) = true := by
      rw [idxAtOrBeyondMax]
      simp only [ge_iff_le, decide_eq_true_eq]
      exact_mod_cast hge
    simp [arrayGetItem, hneg, hidx]

/-- C9 witness: `Array[3:5, u8]` holding one element — index 2 yields the
default 0, index 5 raises `IndexError`. -/
theorem C9_array_indexing_witness :
    (([Val.int 9] : List Val).length ≤ 2
      ∧ arrayGetItem 3 (some 5) u8c [Val.int 9] ((2 : Nat) : Int)
          = .ok (defaultVal u8c)
      ∧ arrayGetItem 3 (some 5) u8c [Val.int 9] ((5 : Nat) : Int)
          = .error .indexError) := by
  refine ⟨by simp, ?_, ?_⟩
  · exact (C9_array_indexing 3 (some 5) u8c [Val.int 9] 2).1 (by simp)
      (Or.inr ⟨5, rfl, by omega⟩)
  · exact (C9_array_indexing 3 (some 5) u8c [Val.int 9] 5).2 5 rfl (by omega)

/-! ## Claim C2: VST placement at schema definition time -/

/-- C2: the failing input of the claim.  `S` is a struct with a variable
tail (`header: u8, payload: Array[0:16, u8]`), and `T(S)` adding `trailer: u8`
declares one fixed member after the variable base.  `on_member_add` sees
only the single own member and raises nothing; `StructMeta.__new__` reads
the *last own member* (`trailer`, not variable) and therefore also raises
nothing — the definition succeeds and produces a member list whose
variable member is not last, contradicting the claim (and §4.4 step 2),
which demands a schema-definition error. -/
theorem C2_vst_base_not_rejected :
    isVst (Codec.strukt [(MKey.name "header", u8c),
        (MKey.name "payload", Codec.array 0 (some 16) u8c)]) = true
    ∧ structMetaNew
        [[(MKey.name "header", u8c),
          (MKey.name "payload", Codec.array 0 (some 16) u8c)]]
        [(MKey.name "trailer", u8c)]
      = .ok [(MKey.name "header", u8c),
             (MKey.name "payload", Codec.array 0 (some 16) u8c),
             (MKey.name "trailer", u8c)]
    ∧ vstNotLast [(MKey.name "header", u8c),
        (MKey.name "payload", Codec.array 0 (some 16) u8c),
        (MKey.name "trailer", u8c)] = true := by
  refine ⟨?_, ?_, ?_⟩
  · simp [isVst, lastIsVst, sizeDiffers, u8c]
  · simp [structMetaNew, fieldVstRaised, baseLoop, isVst, lastIsVst,
      sizeDiffers, u8c]
  · simp [vstNotLast, isVst, sizeDiffers, u8c, lastIsVst]

/-! ## Claim C6: struct compare type mismatch -/

/-- C6: comparing a struct instance against an instance of a different
concrete type with the same field names.  The guard of
`Struct._heracles_compare_` is the chained comparison
`type(other) != type(self) != type(value)`; with `value` defaulting to
`self` its second conjunct is false, so no `TypeMismatchError` is raised
and the member-wise comparison returns a boolean — here `True` for two
structurally equal instances of the distinct types 0 and 1. -/
theorem C6_compare_no_type_error :
    (0 : Nat) ≠ 1
    ∧ structHCompare [(MKey.name "x", u8c)]
        (SInst.mk 0 [("x", Val.int 0)]) (SInst.mk 1 [("x", Val.int 0)]) none
      = .ok true := by
  refine ⟨by omega, ?_⟩
  simp [structHCompare, memberCmp, lookupField, compareC, u8c]

/-! ## Claim C8: enum construction default -/

/-- C8: an enum with first declared literal 0: constructing with no value
raises `TypeError` (`Enum.__init__` declares `value` without a default),
even though the claim and §4.5 say the first declared literal should be
used; construction with the explicit first literal succeeds. -/
theorem C8_enum_no_default :
    enumNew 1 false [0, 1] none = .error .typeError
    ∧ ([0, 1] : List Int).head? = some 0
    ∧ enumNew 1 false [0, 1] (some 0) = .ok 0 := by
  refine ⟨rfl, rfl, ?_⟩
  simp [enumNew, inRangeI, half256]

/-! ## Claims C7 and C10: hidden members and construction -/

/-- Keys of `iterKeys` distribute over append. -/
theorem iterKeys_append (a b : List (MKey × Codec)) :
    iterKeys (a ++ b) = iterKeys a ++ iterKeys b := by
  induction a with
  | nil => simp [iterKeys]
  | cons hd rest ih =>
    obtain ⟨k, c⟩ := hd
    cases k with
    | name n => rw [List.cons_append, iterKeys, iterKeys, ih, List.cons_append]
    | hidden id => rw [List.cons_append, iterKeys, iterKeys, ih]

/-- Every visible name of a member map built by `on_member_add` is either
a visible name of the accumulator or the name of a non-hidden
declaration: the declared name of a hidden member is discarded when its key
is replaced by the `HiddenSentinal`. -/
theorem addMembers_iterKeys (decls : List (String × Codec)) :
    ∀ fresh acc ms, addMembers fresh acc decls = .ok ms →
      ∀ n', n' ∈ iterKeys ms →
        n' ∈ iterKeys acc ∨ ∃ c', (n', c') ∈ decls ∧ isHiddenC c' = false := by
  induction decls with
  | nil =>
    intro fresh acc ms h n' hn
    rw [addMembers] at h
    simp only [Except.ok.injEq] at h
    subst h
    exact Or.inl hn
  | cons hd rest ih =>
    intro fresh acc ms h n' hn
    obtain ⟨nm, c0⟩ := hd
    rw [addMembers] at h
    by_cases hcol : acc.any (fun kv => kv.1 == MKey.name nm)
    · rw [if_pos hcol] at h
      exact absurd h (by simp)
    · rw [if_neg hcol] at h
      have step : ∀ ms', addMembers (fresh + 1)
          (acc ++ [(if isHiddenC c0 then MKey.hidden fresh else MKey.name nm, c0)])
          rest = .ok ms' → ms' = ms → True := fun _ _ _ => trivial
      cases hlast : acc.getLast? with
      | none =>
        simp only [hlast] at h
        rcases ih (fresh + 1) _ ms h n' hn with hacc | ⟨c', hc', hh⟩
        · rw [iterKeys_append] at hacc
          rcases List.mem_append.mp hacc with ha | hb
          · exact Or.inl ha
          · by_cases hhid : isHiddenC c0
            · simp [hhid, iterKeys] at hb
            · simp only [hhid, Bool.false_eq_true, if_false, iterKeys] at hb
              rcases List.mem_cons.mp hb with hq | hq
              · subst hq
                exact Or.inr ⟨c0, List.mem_cons_self .., by simpa using hhid⟩
              · simp [iterKeys] at hq
        · exact Or.inr ⟨c', List.mem_cons_of_mem _ hc', hh⟩
      | some lastm =>
        obtain ⟨lk, lc⟩ := lastm
        simp only [hlast] at h
        by_cases hlv : isVst lc
        · rw [if_pos hlv] at h
          exact absurd h (by simp)
        · rw [if_neg hlv] at h
          rcases ih (fresh + 1) _ ms h n' hn with hacc | ⟨c', hc', hh⟩
          · rw [iterKeys_append] at hacc
            rcases List.mem_append.mp hacc with ha | hb
            · exact Or.inl ha
            · by_cases hhid : isHiddenC c0
              · simp [hhid, iterKeys] at hb
              · simp only [hhid, Bool.false_eq_true, if_false, iterKeys] at hb
                rcases List.mem_cons.mp hb with hq | hq
                · subst hq
                  exact Or.inr ⟨c0, List.mem_cons_self .., by simpa using hhid⟩
                · simp [iterKeys] at hq
          · exact Or.inr ⟨c', List.mem_cons_of_mem _ hc', hh⟩

/-- `_heracles_compare_` depends only on the visible members: skipping
hidden members is the same as filtering them out first. -/
theorem compareFieldsC_visible (ms : List (MKey × Codec)) :
    ∀ fs gs, compareFieldsC ms fs gs = compareFieldsC (visibleMembers ms) fs gs := by
  induction ms with
  | nil => intro fs gs; rw [visibleMembers]
  | cons hd rest ih =>
    intro fs gs
    obtain ⟨k, c⟩ := hd
    rw [compareFieldsC, visibleMembers]
    by_cases hh : isHiddenC c
    · simp only [hh, if_true]
      exact ih fs gs
    · simp only [hh, Bool.false_eq_true, if_false]
      rw [compareFieldsC]
      simp only [hh, Bool.false_eq_true, if_false]
      cases fs with
      | nil => rw [compareVis, compareVis]
      | cons f fs' =>
        cases gs with
        | nil => rw [compareVis, compareVis]
        | cons g gs' =>
          rw [compareVis, compareVis, ih fs' gs']

/-- Whether a mapping contains a key. -/
def containsKey (d : List (String × Val)) (n : String) : Bool :=
  d.any (fun kv => kv.1 == n)

theorem popKey_mem (n : String) (d : List (String × Val)) :
    ∀ kv, kv ∈ (popKey n d).2 → kv ∈ d := by
  induction d with
  | nil => simp [popKey]
  | cons hd rest ih =>
    obtain ⟨k, v⟩ := hd
    by_cases hk : k = n
    · intro kv hkv
      simp only [popKey, if_pos hk] at hkv
      exact List.mem_cons_of_mem _ hkv
    · intro kv hkv
      simp only [popKey, if_neg hk] at hkv
      rcases List.mem_cons.mp hkv with h1 | h1
      · subst h1
        exact List.mem_cons_self _ _
      · exact List.mem_cons_of_mem _ (ih kv h1)

theorem popKey_nodup (n : String) (d : List (String × Val))
    (h : keysNodup d = true) : keysNodup (popKey n d).2 = true := by
  induction d with
  | nil => simpa [popKey] using h
  | cons hd rest ih =>
    obtain ⟨k, v⟩ := hd
    rw [keysNodup, Bool.and_eq_true] at h
    by_cases hk : k = n
    · simp only [popKey, if_pos hk]
      exact h.2
    · simp only [popKey, if_neg hk]
      rw [keysNodup, Bool.and_eq_true]
      constructor
      · have h1 := h.1
        simp only [Bool.not_eq_true', List.any_eq_false] at h1 ⊢
        exact fun kv hkv => h1 kv (popKey_mem n rest kv hkv)
      · exact ih h.2

/-- `dict.pop` and key membership: popping `n` removes exactly the key
`n` from a mapping with distinct keys. -/
theorem popKey_contains (n : String) (d : List (String × Val)) (key : String)
    (hnodup : keysNodup d = true) :
    containsKey (popKey n d).2 key = (containsKey d key && !(key == n)) := by
  induction d with
  | nil => simp [popKey, containsKey]
  | cons hd rest ih =>
    obtain ⟨k, v⟩ := hd
    rw [keysNodup, Bool.and_eq_true] at hnodup
    obtain ⟨hnr, hrest⟩ := hnodup
    have ihh := ih hrest
    by_cases hk : k = n
    · subst hk
      by_cases hkey : key = k
      · subst hkey
        simp only [Bool.not_eq_true', List.any_eq_false] at hnr
        simp [popKey, containsKey]
        intro a b hab
        simpa using hnr (a, b) hab
      · have h1 : (k == key) = false := by simpa using Ne.symm hkey
        have h2 : (key == k) = false := by simpa using hkey
        simp [popKey, containsKey, h1, h2]
    · simp only [popKey, if_neg hk]
      simp only [containsKey, List.any_cons] at ihh ⊢
      rw [ihh]
      by_cases hkey : key = n
      · subst hkey
        have hkk : (k == key) = false := by simp [hk]
        simp [hkk]
      · have hkn : (key == n) = false := by simp [hkey]
        simp [hkn]

/-- The construction loop pops exactly the visible member names out of
the supplied mapping: a key remains in the residual mapping iff it was
present and is not a visible member name. -/
theorem structInitLoop_contains (ms : List (MKey × Codec)) :
    ∀ d key, keysNodup d = true →
      containsKey (structInitLoop ms d).2 key
        = (containsKey d key && !((iterKeys ms).contains key)) := by
  induction ms with
  | nil =>
    intro d key h
    simp [structInitLoop, iterKeys]
  | cons hd rest ih =>
    intro d key h
    obtain ⟨k, c⟩ := hd
    cases k with
    | hidden id =>
      rw [structInitLoop, iterKeys]
      exact ih d key h
    | name n =>
      rw [structInitLoop]
      cases hpop : popKey n d with
      | mk r1 d' =>
        have hd' : d' = (popKey n d).2 := by rw [hpop]
        have hnd' : keysNodup d' = true := by
          rw [hd']
          exact popKey_nodup n d h
        have hck : containsKey d' key = (containsKey d key && !(key == n)) := by
          rw [hd']
          exact popKey_contains n d key h
        have hrec : containsKey (structInitLoop rest d').2 key
            = (containsKey d key && !(key == n) && !((iterKeys rest).contains key)) := by
          rw [ih d' key hnd', hck]
        cases r1 with
        | some v =>
          simp only [hpop, hrec, iterKeys]
          by_cases hkey : key = n
          · subst hkey
            simp [List.contains]
          · have hkn : (key == n) = false := by simp [hkey]
            simp [List.contains, List.elem, hkn, Bool.and_assoc]
        | none =>
          simp only [hpop, hrec, iterKeys]
          by_cases hkey : key = n
          · subst hkey
            simp [List.contains]
          · have hkn : (key == n) = false := by simp [hkey]
            simp [List.contains, List.elem, hkn, Bool.and_assoc]

/-- Constructing from an empty mapping never pops anything and gives
every visible member its serializer default. -/
theorem structInitLoop_empty (ms : List (MKey × Codec))
    (hwf : membersWF ms = true) :
    structInitLoop ms [] = (defaultFields ms, []) := by
  induction ms with
  | nil => rw [structInitLoop, defaultFields]
  | cons hd rest ih =>
    obtain ⟨k, c⟩ := hd
    rw [membersWF] at hwf
    simp only [Bool.and_eq_true, beq_iff_eq] at hwf
    have hk := hwf.1.1.1.1.2
    have hrest := hwf.2
    cases k with
    | hidden id =>
      have hh : isHiddenC c = true := by rw [← hk]; rfl
      rw [structInitLoop, defaultFields, if_pos hh]
      exact ih hrest
    | name n =>
      have hh : isHiddenC c = false := by rw [← hk]; rfl
      rw [structInitLoop, defaultFields, if_neg (by simp [hh])]
      simp only [popKey, ih hrest]


/-- C7: hidden exclusion.  For any member map built by `on_member_add`
from declarations in which every declaration named `n` is hidden: `n` is
not among the iterated field names (`StructMeta.__iter__` skips
`HiddenSentinal` keys), the member-wise comparison of
`Struct._heracles_compare_` is the comparison over the visible members
only, and constructing from a mapping that supplies `n` raises
`UnknownFieldsError` (the name is never popped, so it survives to the
final residual check of `Struct.__init__`). -/
theorem C7_hidden_exclusion
    (decls : List (String × Codec)) (ms : List (MKey × Codec))
    (hbuild : addMembers 0 [] decls = .ok ms)
    (n : String) (c : Codec)
    (hdecl : (n, c) ∈ decls) (hhid : isHiddenC c = true)
    (hnovis : ∀ c', (n, c') ∈ decls → isHiddenC c' = true)
    (d : List (String × Val)) (hnodup : keysNodup d = true)
    (hd : containsKey d n = true) :
    n ∉ iterKeys ms
    ∧ (∀ fs gs, compareFieldsC ms fs gs = compareFieldsC (visibleMembers ms) fs gs)
    ∧ (structInit ms d).1 = .error .unknownFields := by
  have hnot : n ∉ iterKeys ms := by
    intro hmem
    rcases addMembers_iterKeys decls 0 [] ms hbuild n hmem with h0 | ⟨c', hc', hv⟩
    · simp [iterKeys] at h0
    · rw [hnovis c' hc'] at hv
      exact absurd hv (by simp)
  refine ⟨hnot, fun fs gs => compareFieldsC_visible ms fs gs, ?_⟩
  have hres : containsKey (structInitLoop ms d).2 n = true := by
    have hcontains : (iterKeys ms).contains n = false := by
      simpa using hnot
    rw [structInitLoop_contains ms d n hnodup, hd, hcontains]
    rfl
  have hne : (structInitLoop ms d).2.isEmpty = false := by
    cases hcase : (structInitLoop ms d).2 with
    | nil =>
      rw [hcase] at hres
      simp [containsKey] at hres
    | cons a l => rfl
  simp [structInit, hne]

/-- C7 witness: a two-member layout `x: u8` with a hidden one-byte pad
declared under the name `pad`. -/
theorem C7_hidden_exclusion_witness :
    "pad" ∉ iterKeys [(MKey.name "x", u8c),
        (MKey.hidden 1, Codec.scalar 1 false false 0 true)]
    ∧ compareFieldsC [(MKey.name "x", u8c),
          (MKey.hidden 1, Codec.scalar 1 false false 0 true)]
        [Val.int 5] [Val.int 5]
      = compareFieldsC (visibleMembers [(MKey.name "x", u8c),
          (MKey.hidden 1, Codec.scalar 1 false false 0 true)])
        [Val.int 5] [Val.int 5]
    ∧ (structInit [(MKey.name "x", u8c),
          (MKey.hidden 1, Codec.scalar 1 false false 0 true)]
        [("pad", Val.int 0)]).1
      = .error .unknownFields := by
  have h := C7_hidden_exclusion
    [("x", u8c), ("pad", Codec.scalar 1 false false 0 true)]
    [(MKey.name "x", u8c), (MKey.hidden 1, Codec.scalar 1 false false 0 true)]
    rfl "pad" (Codec.scalar 1 false false 0 true)
    (by simp) rfl
    (by
      intro c' hc
      simp at hc
      subst hc
      rfl)
    [("pad", Val.int 0)] rfl (by simp [containsKey])
  exact ⟨h.1, h.2.1 [Val.int 5] [Val.int 5], h.2.2⟩

/-- C10 counterexample to the final consequence of the claim: a mapping
whose one supplied value equals the member default.  Construction
succeeds and empties the mapping, yet re-running construction on the
very mapping object the first call left behind (now empty) succeeds and
yields the all-defaults instance, whose single field equals that of the
first instance — so the mutated dict CAN be reused to construct an
equal instance. -/
theorem C10_counterexample :
    (structInit [(MKey.name "x", u8c)] [("x", Val.int 0)]).1 = .ok [Val.int 0]
    ∧ (structInit [(MKey.name "x", u8c)] [("x", Val.int 0)]).2 = []
    ∧ (structInit [(MKey.name "x", u8c)] []).1 = .ok [Val.int 0]
    ∧ compareFieldsC [(MKey.name "x", u8c)] [Val.int 0] [Val.int 0] = true := by
  refine ⟨?_, ?_, ?_, ?_⟩
  · simp [structInit, structInitLoop, popKey]
  · simp [structInit, structInitLoop, popKey]
  · simp [structInit, structInitLoop, popKey, defaultVal, u8c]
  · simp [compareFieldsC, compareVis, compareC, isHiddenC, u8c, pyEq]

/-- C10 (amended): `Struct.__init__` pops exactly the recognized visible
member names out of the supplied mapping — a key survives in the
residual iff it was present and is not a visible member name; on success
the residual (hence the caller-visible leftover) is empty; and the
mutated mapping can still construct a second instance whenever its
remaining keys are again all recognized — in particular an emptied
mapping constructs the all-defaults instance.  The original claim is
right about the frame effect but wrong that the mutated dict can never
be reused to construct an equal instance. -/
theorem C10_construction_frame (ms : List (MKey × Codec)) (d : List (String × Val))
    (hnodup : keysNodup d = true) (hwf : membersWF ms = true) :
    (∀ key, containsKey (structInit ms d).2 key
        = (containsKey d key && !((iterKeys ms).contains key)))
    ∧ (∀ fs, (structInit ms d).1 = .ok fs → (structInit ms d).2 = [])
    ∧ (structInit ms []).1 = .ok (defaultFields ms) := by
  refine ⟨?_, ?_, ?_⟩
  · intro key
    exact structInitLoop_contains ms d key hnodup
  · intro fs hok
    by_cases hemp : (structInitLoop ms d).2.isEmpty
    · show (structInitLoop ms d).2 = []
      exact List.isEmpty_iff.mp hemp
    · exfalso
      have herr : (structInit ms d).1 = .error .unknownFields := by
        simp only [structInit, Bool.not_eq_true] at hemp ⊢
        simp [hemp]
      rw [herr] at hok
      exact absurd hok (by simp)
  · simp [structInit, structInitLoop_empty ms hwf]

/-- C10 witness: one visible member `x: u8`; the supplied mapping has a
recognized key `x` and an unrecognized key `y`. -/
theorem C10_construction_frame_witness :
    keysNodup [("x", Val.int 1), ("y", Val.int 2)] = true
    ∧ membersWF [(MKey.name "x", u8c)] = true
    ∧ containsKey (structInit [(MKey.name "x", u8c)]
          [("x", Val.int 1), ("y", Val.int 2)]).2 "y"
        = (containsKey [("x", Val.int 1), ("y", Val.int 2)] "y"
            && !((iterKeys [(MKey.name "x", u8c)]).contains "y"))
    ∧ (structInit [(MKey.name "x", u8c)] []).1
        = .ok (defaultFields [(MKey.name "x", u8c)]) := by
  have h1 : keysNodup [("x", Val.int 1), ("y", Val.int 2)] = true := by
    simp [keysNodup]
  have h2 : membersWF [(MKey.name "x", u8c)] = true := by
    simp [membersWF, WF, widthOk, inRangeI, half256, keyHidden, isHiddenC,
      keyFresh, hasVisibleName, isVst, u8c, sizeDiffers]
  have h := C10_construction_frame [(MKey.name "x", u8c)]
    [("x", Val.int 1), ("y", Val.int 2)] h1 h2
  exact ⟨h1, h2, h.1 "y", h.2.2⟩

/-! ## Decode bounds and totality (claim C3) -/

theorem bytesOk_iff (raw : List Nat) :
    bytesOk raw = true ↔ ∀ b ∈ raw, b < 256 := by
  induction raw with
  | nil => simp [bytesOk]
  | cons b bs ih =>
    rw [bytesOk]
    simp [ih]

theorem bytesOk_take (raw : List Nat) (k : Nat) (h : bytesOk raw = true) :
    bytesOk (raw.take k) = true := by
  rw [bytesOk_iff] at h ⊢
  exact fun b hb => h b (List.mem_of_mem_take hb)

theorem bytesOk_drop (raw : List Nat) (k : Nat) (h : bytesOk raw = true) :
    bytesOk (raw.drop k) = true := by
  rw [bytesOk_iff] at h ⊢
  exact fun b hb => h b (List.mem_of_mem_drop hb)

/-- `struct.unpack` of a byte string of exactly the format width always
lands inside the `IntRangeValidator` range of the format: deserializing
a right-sized chunk through a scalar never fails validation. -/
theorem unpack_inRange (w : Nat) (sgn be : Bool) (raw : List Nat)
    (hw1 : 1 ≤ w) (hok : bytesOk raw = true) (hlen : raw.length = w) :
    inRangeI w sgn (unpackInt w sgn be raw) = true := by
  have hall : ∀ b ∈ raw, b < 256 := (bytesOk_iff raw).mp hok
  have hbsall : ∀ b ∈ (if be then raw.reverse else raw), b < 256 := by
    cases be <;> simpa using hall
  have hbslen : (if be then raw.reverse else raw).length = w := by
    cases be <;> simp [hlen]
  have hu : decodeLE (if be then raw.reverse else raw) < 256 ^ w := by
    rw [← hbslen]
    exact decodeLE_lt _ hbsall
  have hhalf : 2 * half256 w = 256 ^ w := two_half256 w hw1
  have hcast : ((256 : Int) ^ w) = ((256 ^ w : Nat) : Int) := by push_cast; ring
  set u := decodeLE (if be then raw.reverse else raw) with hudef
  cases sgn with
  | false =>
    have hval : unpackInt w false be raw = (u : Int) := by
      rw [unpackInt]
      simp [← hudef]
    rw [hval, inRangeI]
    simp only [Bool.false_eq_true, if_false, decide_eq_true_eq]
    rw [hcast]
    constructor
    · positivity
    · exact_mod_cast hu
  | true =>
    by_cases hg : half256 w ≤ u
    · have hval : unpackInt w true be raw = (u : Int) - (256 : Int) ^ w := by
        rw [unpackInt]
        simp [← hudef, hg]
      rw [hval, inRangeI]
      simp only [if_true, decide_eq_true_eq]
      rw [hcast]
      constructor
      · have : (half256 w : Int) ≤ (u : Int) := by exact_mod_cast hg
        have h2 : ((u : Nat) : Int) < ((256 ^ w : Nat) : Int) := by exact_mod_cast hu
        omega
      · have h2 : ((u : Nat) : Int) < ((256 ^ w : Nat) : Int) := by exact_mod_cast hu
        omega
    · have hval : unpackInt w true be raw = (u : Int) := by
        rw [unpackInt]
        simp [← hudef, hg]
      rw [hval, inRangeI]
      simp only [if_true, decide_eq_true_eq]
      constructor
      · have : (0 : Int) ≤ (u : Int) := by positivity
        have hpos : (0 : Nat) < half256 w := by
          rw [half256]
          positivity
        omega
      · have : u < half256 w := by omega
        exact_mod_cast this

/-- `iter_chunks` produces `len / size` chunks when `size` divides the
length. -/
theorem chunkList_length (s : Nat) (raw : List Nat) (hs : 0 < s)
    (hdvd : s ∣ raw.length) :
    (chunkList s raw).length = raw.length / s := by
  match raw, s, hs with
  | [], _, _ => simp [chunkList]
  | b :: rest, s' + 1, _ =>
    obtain ⟨k, hk⟩ := hdvd
    have hk1 : 1 ≤ k := by
      rcases Nat.eq_zero_or_pos k with h0 | h1
      · rw [h0] at hk
        simp at hk
      · exact h1
    have hrl : rest.length = s' + (s' + 1) * (k - 1) := by
      have : (s' + 1) * k = (s' + 1) * (k - 1) + (s' + 1) := by
        rw [Nat.mul_sub_one]
        have : s' + 1 ≤ (s' + 1) * k := Nat.le_mul_of_pos_right _ hk1
        omega
      simp only [List.length_cons] at hk
      omega
    have hdl : (rest.drop s').length = (s' + 1) * (k - 1) := by
      simp [hrl]
    rw [chunkList, List.length_cons,
      chunkList_length (s' + 1) (rest.drop s') (by omega) (by rw [hdl]; exact Dvd.intro _ rfl)]
    rw [hdl, Nat.mul_div_cancel_left _ (by omega)]
    simp only [List.length_cons, hk]
    rw [Nat.mul_div_cancel_left _ (by omega)]
    omega
termination_by raw.length
decreasing_by
  simp only [List.length_cons, List.length_drop]
  omega

/-- Every chunk of an exactly divisible byte string has exactly the chunk
size and consists of bytes of the original string. -/
theorem chunkList_mem (s : Nat) (raw : List Nat) (hs : 0 < s)
    (hdvd : s ∣ raw.length) :
    ∀ ch ∈ chunkList s raw, ch.length = s ∧ ∀ b ∈ ch, b ∈ raw := by
  match raw, s, hs with
  | [], _, _ => simp [chunkList]
  | b :: rest, s' + 1, _ =>
    obtain ⟨k, hk⟩ := hdvd
    have hk1 : 1 ≤ k := by
      rcases Nat.eq_zero_or_pos k with h0 | h1
      · rw [h0] at hk
        simp at hk
      · exact h1
    have hrl : rest.length = s' + (s' + 1) * (k - 1) := by
      have : (s' + 1) * k = (s' + 1) * (k - 1) + (s' + 1) := by
        rw [Nat.mul_sub_one]
        have : s' + 1 ≤ (s' + 1) * k := Nat.le_mul_of_pos_right _ hk1
        omega
      simp only [List.length_cons] at hk
      omega
    have hdl : (rest.drop s').length = (s' + 1) * (k - 1) := by
      simp [hrl]
    intro ch hch
    rw [chunkList] at hch
    rcases List.mem_cons.mp hch with h1 | h1
    · subst h1
      constructor
      · simp only [List.length_cons, List.length_take]
        omega
      · intro x hx
        rcases List.mem_cons.mp hx with h2 | h2
        · subst h2
          exact List.mem_cons_self _ _
        · exact List.mem_cons_of_mem _ (List.mem_of_mem_take h2)
    · have := chunkList_mem (s' + 1) (rest.drop s') (by omega)
        (by rw [hdl]; exact Dvd.intro _ rfl) ch h1
      exact ⟨this.1, fun x hx =>
        List.mem_cons_of_mem _ (List.mem_of_mem_drop (this.2 x hx))⟩
termination_by raw.length
decreasing_by
  simp only [List.length_cons, List.length_drop]
  omega

/-- The `i`-th chunk is the slice `[i * s, (i + 1) * s)` of the byte
string. -/
theorem chunkList_getElem (s : Nat) (raw : List Nat) (hs : 0 < s)
    (hdvd : s ∣ raw.length) :
    ∀ i, i < raw.length / s →
      (chunkList s raw)[i]? = some ((raw.drop (i * s)).take s) := by
  match raw, s, hs with
  | [], _, _ =>
    intro i hi
    simp at hi
  | b :: rest, s' + 1, _ =>
    obtain ⟨k, hk⟩ := hdvd
    have hk1 : 1 ≤ k := by
      rcases Nat.eq_zero_or_pos k with h0 | h1
      · rw [h0] at hk
        simp at hk
      · exact h1
    have hrl : rest.length = s' + (s' + 1) * (k - 1) := by
      have : (s' + 1) * k = (s' + 1) * (k - 1) + (s' + 1) := by
        rw [Nat.mul_sub_one]
        have : s' + 1 ≤ (s' + 1) * k := Nat.le_mul_of_pos_right _ hk1
        omega
      simp only [List.length_cons] at hk
      omega
    have hdl : (rest.drop s').length = (s' + 1) * (k - 1) := by
      simp [hrl]
    intro i hi
    rw [chunkList]
    cases i with
    | zero =>
      simp only [List.getElem?_cons_zero, List.drop_zero, Nat.zero_mul,
        List.take_succ_cons, Option.some.injEq]
    | succ j =>
      rw [List.getElem?_cons_succ]
      have hdvd' : (s' + 1) ∣ (rest.drop s').length := by
        rw [hdl]
        exact Dvd.intro _ rfl
      have hj : j < (rest.drop s').length / (s' + 1) := by
        rw [hdl, Nat.mul_div_cancel_left _ (by omega)]
        simp only [List.length_cons, hk] at hi
        rw [Nat.mul_div_cancel_left _ (by omega)] at hi
        omega
      rw [chunkList_getElem (s' + 1) (rest.drop s') (by omega) hdvd' j hj]
      have hdrop : (rest.drop s').drop (j * (s' + 1)) = (b :: rest).drop ((j + 1) * (s' + 1)) := by
        rw [List.drop_drop]
        rw [show (j + 1) * (s' + 1) = (j * (s' + 1) + s') + 1 by ring]
        rw [List.drop_succ_cons]
        congr 1
        omega
      rw [hdrop]
termination_by raw.length
decreasing_by
  simp only [List.length_cons, List.length_drop]
  omega

/-- In a well-formed member list whose last member is not variable, no
member is variable. -/
theorem membersWF_all_nonvst (ms : List (MKey × Codec)) (hw : membersWF ms = true)
    (hlast : lastIsVst ms = false) : ∀ kc ∈ ms, isVst kc.2 = false := by
  induction ms with
  | nil => simp
  | cons hd rest ih =>
    obtain ⟨k, c⟩ := hd
    rw [membersWF] at hw
    simp only [Bool.and_eq_true] at hw
    cases rest with
    | nil =>
      rw [lastIsVst] at hlast
      intro kc hkc
      simp only [List.mem_singleton] at hkc
      subst hkc
      exact hlast
    | cons r rs =>
      rw [lastIsVst] at hlast
      intro kc hkc
      rcases List.mem_cons.mp hkc with h1 | h1
      · subst h1
        have hne := hw.1.1.1.2
        simp only [Bool.or_eq_true, List.isEmpty_cons, Bool.not_eq_true'] at hne
        rcases hne with h2 | h2
        · exact absurd h2 (by simp)
        · exact h2
      · exact ih hw.2 hlast kc h1


mutual

/-- On a byte string of exactly the fixed size, a non-variable codec
never raises `DecodeError` (it may still raise `ValidationError` from
the re-validation inside `Struct.deserialize`). -/
theorem deser_noDecodeErr (c : Codec) (raw : List Nat) (hw : WF c = true)
    (hnv : isVst c = false) (hlen : raw.length = fixedSize c) :
    deserialize c raw ≠ .error .decodeError := by
  cases c with
  | scalar w sgn be d hid =>
    rw [deserialize, if_pos (by rw [hlen, fixedSize])]
    by_cases hr : inRangeI w sgn (unpackInt w sgn be raw)
    · simp [hr]
    · simp [hr]
  | enumC w sgn be d lits =>
    rw [deserialize, if_pos (by rw [hlen, fixedSize])]
    by_cases hr : inRangeI w sgn (unpackInt w sgn be raw)
    · simp [hr]
    · simp [hr]
  | array m M e =>
    have hM : M = some m := (isVst_array m M e).mp hnv
    subst hM
    have hw' := hw
    rw [WF] at hw'
    simp only [Bool.and_eq_true, Bool.not_eq_eq_eq_not, Bool.not_true,
      decide_eq_true_eq] at hw'
    obtain ⟨⟨⟨⟨hwe, hnve⟩, hse⟩, _⟩, _⟩ := hw'
    rw [fixedSize] at hlen
    have hdvd : fixedSize e ∣ raw.length := by
      rw [hlen]
      exact dvd_mul_left _ _
    rw [deserialize]
    rw [if_neg (by omega)]
    rw [show tooLong (some m) raw.length (fixedSize e) = false from by
      rw [tooLong]
      simp only [decide_eq_false_iff_not, not_lt]
      omega]
    simp only [Bool.false_eq_true, if_false]
    rw [if_neg (by rw [hlen]; simp [Nat.mul_mod_left])]
    have hchunks : ∀ ch ∈ chunkList (fixedSize e) raw, ch.length = fixedSize e :=
      fun ch hch => (chunkList_mem (fixedSize e) raw hse hdvd ch hch).1
    have hnde := decodeChunks_noDecodeErr e (chunkList (fixedSize e) raw) hwe hnve hchunks
    cases hd : decodeChunks e (chunkList (fixedSize e) raw) with
    | error err =>
      rw [hd] at hnde
      simp only [hd]
      intro hc
      injection hc with herr
      exact hnde (by rw [herr])
    | ok xs => simp [hd]
  | strukt ms =>
    have hlv : lastIsVst ms = false := by rwa [isVst] at hnv
    have hwm : membersWF ms = true := by rwa [WF] at hw
    rw [fixedSize] at hlen
    have hanv : ∀ kc ∈ ms, isVst kc.2 = false := membersWF_all_nonvst ms hwm hlv
    rw [deserialize]
    rw [if_neg (by omega)]
    have hnde := decodeMembers_noDecodeErr ms raw hwm hanv hlen
    cases hd : decodeMembers ms raw with
    | error err =>
      rw [hd] at hnde
      simp only [hd]
      intro hc
      injection hc with herr
      exact hnde (by rw [herr])
    | ok fs =>
      simp only [hd]
      by_cases hvf : validateFields ms fs
      · simp [hvf]
      · simp [hvf]
termination_by (sizeOf c, 0, 0)

theorem decodeChunks_noDecodeErr (e : Codec) (chunks : List (List Nat))
    (hw : WF e = true) (hnv : isVst e = false)
    (hchunks : ∀ ch ∈ chunks, ch.length = fixedSize e) :
    decodeChunks e chunks ≠ .error .decodeError := by
  match chunks with
  | [] =>
    rw [decodeChunks]
    simp
  | ch :: rest =>
    rw [decodeChunks]
    have h1 := deser_noDecodeErr e ch hw hnv (hchunks ch (List.mem_cons_self _ _))
    cases hd : deserialize e ch with
    | error err =>
      rw [hd] at h1
      simp only [hd]
      intro hc
      injection hc with herr
      exact h1 (by rw [herr])
    | ok v =>
      simp only [hd]
      have h2 := decodeChunks_noDecodeErr e rest hw hnv
        (fun c hc => hchunks c (List.mem_cons_of_mem _ hc))
      cases hr : decodeChunks e rest with
      | error err =>
        rw [hr] at h2
        simp only [hr]
        exact h2
      | ok vs => simp [hr]
termination_by (sizeOf e, 1, sizeOf chunks)

theorem decodeMembers_noDecodeErr (ms : List (MKey × Codec)) (raw : List Nat)
    (hw : membersWF ms = true) (hnv : ∀ kc ∈ ms, isVst kc.2 = false)
    (hlen : raw.length = fixedSizeM ms) :
    decodeMembers ms raw ≠ .error .decodeError := by
  match ms with
  | [] =>
    rw [decodeMembers]
    simp
  | (k, c) :: rest =>
    rw [membersWF] at hw
    simp only [Bool.and_eq_true] at hw
    obtain ⟨⟨⟨⟨⟨hwc, _⟩, _⟩, _⟩, _⟩, hwrest⟩ := hw
    have hcnv : isVst c = false := hnv (k, c) (List.mem_cons_self _ _)
    rw [fixedSizeM] at hlen
    rw [decodeMembers]
    simp only [hcnv, Bool.false_eq_true, if_false]
    have htake : (raw.take (fixedSize c)).length = fixedSize c := by
      rw [List.length_take]
      omega
    have h1 := deser_noDecodeErr c (raw.take (fixedSize c)) hwc hcnv htake
    cases hd : deserialize c (raw.take (fixedSize c)) with
    | error err =>
      rw [hd] at h1
      simp only [hd]
      intro hc
      injection hc with herr
      exact h1 (by rw [herr])
    | ok v =>
      simp only [hd]
      have hdroplen : (raw.drop (raw.take (fixedSize c)).length).length = fixedSizeM rest := by
        rw [htake, List.length_drop]
        omega
      have h2 := decodeMembers_noDecodeErr rest (raw.drop (raw.take (fixedSize c)).length)
        hwrest (fun kc hkc => hnv kc (List.mem_cons_of_mem _ hkc)) hdroplen
      cases hr : decodeMembers rest (raw.drop (raw.take (fixedSize c)).length) with
      | error err =>
        rw [hr] at h2
        simp only [hr]
        exact h2
      | ok fs => simp [hr]
termination_by (sizeOf ms, 1, sizeOf raw)

end

/-- Left-to-right reading of `decodeChunks`: on success, element `i` of
the result is the decoding of chunk `i`. -/
theorem decodeChunks_get (e : Codec) (chunks : List (List Nat)) (vs : List Val)
    (h : decodeChunks e chunks = .ok vs) :
    ∀ (i : Nat) (ch : List Nat), chunks[i]? = some ch →
      ∃ v, deserialize e ch = .ok v ∧ vs[i]? = some v := by
  induction chunks generalizing vs with
  | nil =>
    intro i ch hch
    simp at hch
  | cons c0 rest ih =>
    rw [decodeChunks] at h
    cases hd : deserialize e c0 with
    | error err =>
      rw [hd] at h
      simp at h
    | ok v0 =>
      rw [hd] at h
      cases hr : decodeChunks e rest with
      | error err =>
        rw [hr] at h
        simp at h
      | ok vs' =>
        rw [hr] at h
        simp only [Except.ok.injEq] at h
        subst h
        intro i ch hch
        cases i with
        | zero =>
          simp only [List.getElem?_cons_zero, Option.some.injEq] at hch
          subst hch
          exact ⟨v0, hd, by simp⟩
        | succ j =>
          rw [List.getElem?_cons_succ] at hch
          obtain ⟨v, hv1, hv2⟩ := ih vs' hr j ch hch
          refine ⟨v, hv1, ?_⟩
          rw [List.getElem?_cons_succ]
          exact hv2


mutual

/-- Decode totality: on a byte string of exactly the fixed size, a
non-variable codec in the `decTotal` class decodes successfully, and the
decoded value passes `validate` whenever the codec is in the `decValid`
class. -/
theorem deser_total (c : Codec) (raw : List Nat) (hw : WF c = true)
    (hnv : isVst c = false) (hdt : decTotal c = true)
    (hb : bytesOk raw = true) (hlen : raw.length = fixedSize c) :
    ∃ v, deserialize c raw = .ok v ∧ (decValid c = true → validate c v = true) := by
  cases c with
  | scalar w sgn be d hid =>
    have hw' := hw
    rw [WF] at hw'
    simp only [Bool.and_eq_true] at hw'
    have hw1 : 1 ≤ w := widthOk_one_le w hw'.1
    rw [fixedSize] at hlen
    have hr : inRangeI w sgn (unpackInt w sgn be raw) = true :=
      unpack_inRange w sgn be raw hw1 hb hlen
    refine ⟨.int (unpackInt w sgn be raw), ?_, ?_⟩
    · rw [deserialize, if_pos hlen]
      simp [hr]
    · intro _
      rw [validate]
      exact hr
  | enumC w sgn be d lits =>
    have hw' := hw
    rw [WF] at hw'
    simp only [Bool.and_eq_true] at hw'
    have hw1 : 1 ≤ w := widthOk_one_le w hw'.1.1.1
    rw [fixedSize] at hlen
    have hr : inRangeI w sgn (unpackInt w sgn be raw) = true :=
      unpack_inRange w sgn be raw hw1 hb hlen
    refine ⟨.int (unpackInt w sgn be raw), ?_, ?_⟩
    · rw [deserialize, if_pos hlen]
      simp [hr]
    · intro hdv
      rw [decValid] at hdv
      exact absurd hdv (by simp)
  | array m M e =>
    have hM : M = some m := (isVst_array m M e).mp hnv
    subst hM
    have hw' := hw
    rw [WF] at hw'
    simp only [Bool.and_eq_true, Bool.not_eq_eq_eq_not, Bool.not_true,
      decide_eq_true_eq] at hw'
    obtain ⟨⟨⟨⟨hwe, hnve⟩, hse⟩, _⟩, _⟩ := hw'
    rw [fixedSize] at hlen
    rw [decTotal] at hdt
    have hdvd : fixedSize e ∣ raw.length := by
      rw [hlen]
      exact dvd_mul_left _ _
    have hch := chunkList_mem (fixedSize e) raw hse hdvd
    obtain ⟨vs, hvs, hlvs, hval⟩ := decodeChunks_total e (chunkList (fixedSize e) raw)
      hwe hnve hdt (fun ch hc => (hch ch hc).1)
      (fun ch hc => by
        rw [bytesOk_iff]
        exact fun b hb2 => (bytesOk_iff raw).mp hb b ((hch ch hc).2 b hb2))
    refine ⟨.seq vs, ?_, ?_⟩
    · rw [deserialize]
      rw [if_neg (by omega)]
      rw [show tooLong (some m) raw.length (fixedSize e) = false from by
        rw [tooLong]
        simp only [decide_eq_false_iff_not, not_lt]
        omega]
      simp only [Bool.false_eq_true, if_false]
      rw [if_neg (by rw [hlen]; simp [Nat.mul_mod_left])]
      simp [hvs]
    · intro hdv
      rw [decValid] at hdv
      simp only [Bool.and_eq_true] at hdv
      rw [validate]
      have hcount : vs.length = m := by
        rw [hlvs, chunkList_length (fixedSize e) raw hse hdvd, hlen,
          Nat.mul_div_cancel _ hse]
      rw [maxLenOk]
      simp [hcount, hval hdv.2]
  | strukt ms =>
    have hlv : lastIsVst ms = false := by rwa [isVst] at hnv
    have hwm : membersWF ms = true := by rwa [WF] at hw
    have hanv := membersWF_all_nonvst ms hwm hlv
    rw [fixedSize] at hlen
    rw [decTotal] at hdt
    obtain ⟨fs, hfs, hvf⟩ := decodeMembers_total ms raw hwm hanv hdt hb hlen
    refine ⟨.strukt fs, ?_, ?_⟩
    · rw [deserialize, if_neg (by omega)]
      simp [hfs, hvf]
    · intro _
      rw [validate]
      exact hvf
termination_by (sizeOf c, 0, 0)

theorem decodeChunks_total (e : Codec) (chunks : List (List Nat))
    (hw : WF e = true) (hnv : isVst e = false) (hdt : decTotal e = true)
    (hlens : ∀ ch ∈ chunks, ch.length = fixedSize e)
    (hoks : ∀ ch ∈ chunks, bytesOk ch = true) :
    ∃ vs, decodeChunks e chunks = .ok vs ∧ vs.length = chunks.length
      ∧ (decValid e = true → validateList e vs = true) := by
  match chunks with
  | [] =>
    refine ⟨[], by rw [decodeChunks], rfl, fun _ => by rw [validateList]⟩
  | ch :: rest =>
    obtain ⟨v, hv, hval⟩ := deser_total e ch hw hnv hdt
      (hoks ch (List.mem_cons_self _ _)) (hlens ch (List.mem_cons_self _ _))
    obtain ⟨vs, hvs, hl, hvl⟩ := decodeChunks_total e rest hw hnv hdt
      (fun c hc => hlens c (List.mem_cons_of_mem _ hc))
      (fun c hc => hoks c (List.mem_cons_of_mem _ hc))
    refine ⟨v :: vs, ?_, by simp [hl], ?_⟩
    · rw [decodeChunks]
      simp [hv, hvs]
    · intro hdv
      rw [validateList]
      simp [hval hdv, hvl hdv]
termination_by (sizeOf e, 1, sizeOf chunks)

theorem decodeMembers_total (ms : List (MKey × Codec)) (raw : List Nat)
    (hw : membersWF ms = true) (hnv : ∀ kc ∈ ms, isVst kc.2 = false)
    (hdt : decTotalM ms = true) (hb : bytesOk raw = true)
    (hlen : raw.length = fixedSizeM ms) :
    ∃ fs, decodeMembers ms raw = .ok fs ∧ validateFields ms fs = true := by
  match ms with
  | [] =>
    refine ⟨[], by rw [decodeMembers], ?_⟩
    rw [validateFields]
    rfl
  | (k, c) :: rest =>
    rw [membersWF] at hw
    simp only [Bool.and_eq_true] at hw
    obtain ⟨⟨⟨⟨⟨hwc, _⟩, _⟩, _⟩, _⟩, hwrest⟩ := hw
    rw [decTotalM] at hdt
    simp only [Bool.and_eq_true] at hdt
    obtain ⟨⟨hdtc, hor⟩, hdtr⟩ := hdt
    have hcnv : isVst c = false := hnv (k, c) (List.mem_cons_self _ _)
    rw [fixedSizeM] at hlen
    have htake : (raw.take (fixedSize c)).length = fixedSize c := by
      rw [List.length_take]
      omega
    have hdroplen : (raw.drop (fixedSize c)).length = fixedSizeM rest := by
      rw [List.length_drop]
      omega
    obtain ⟨v, hv, hval⟩ := deser_total c (raw.take (fixedSize c)) hwc hcnv hdtc
      (bytesOk_take raw (fixedSize c) hb) htake
    obtain ⟨fs, hfs, hvf⟩ := decodeMembers_total rest (raw.drop (fixedSize c)) hwrest
      (fun kc hkc => hnv kc (List.mem_cons_of_mem _ hkc)) hdtr
      (bytesOk_drop raw (fixedSize c) hb) hdroplen
    by_cases hh : isHiddenC c
    · refine ⟨fs, ?_, ?_⟩
      · rw [decodeMembers]
        simp only [hcnv, Bool.false_eq_true, if_false]
        simp only [hv, htake, hfs, hh, if_true]
      · rw [validateFields]
        simp only [hh, if_true]
        exact hvf
    · refine ⟨v :: fs, ?_, ?_⟩
      · rw [decodeMembers]
        simp only [hcnv, Bool.false_eq_true, if_false]
        simp [hv, htake, hfs, hh]
      · rw [validateFields]
        simp only [hh, Bool.false_eq_true, if_false]
        rw [validateVis]
        have hdvc : decValid c = true := by
          rcases Bool.or_eq_true_iff.mp hor with h | h
          · rw [h] at hh
            exact absurd rfl hh
          · exact h
        simp [hval hdvc, hvf]
termination_by (sizeOf ms, 1, sizeOf raw)

end


/-- C3 (amended): array decode bounds.  For a well-formed
`Array[min:max, E]` codec and any byte string `b`, `deserialize` fails
with `DecodeError` exactly when `len(b) < min * s`, or `max` is bounded
and `len(b) > max * s`, or `len(b)` is not a multiple of `s` (where `s`
is the fixed element size).  The success half of the original claim
needs a side condition: when the length conditions hold, decoding
succeeds with `len(b) / s` elements, each the decoding of the
corresponding `s`-byte slice left to right, provided the element codec
is in the decode-total class `decTotal` — otherwise the element-level
re-validation inside `Struct.deserialize` can reject a byte string of
legal length with `ValidationError` (see the counterexample). -/
theorem C3_array_decode_bounds (m : Nat) (M : Option Nat) (e : Codec)
    (b : List Nat) (hw : WF (.array m M e) = true) (hb : bytesOk b = true) :
    (deserialize (.array m M e) b = .error .decodeError
      ↔ (b.length < m * fixedSize e
         ∨ tooLong M b.length (fixedSize e) = true
         ∨ b.length % fixedSize e ≠ 0))
    ∧ (decTotal e = true →
        m * fixedSize e ≤ b.length →
        tooLong M b.length (fixedSize e) = false →
        b.length % fixedSize e = 0 →
        ∃ vs, deserialize (.array m M e) b = .ok (.seq vs)
          ∧ vs.length = b.length / fixedSize e
          ∧ ∀ i : Nat, i < b.length / fixedSize e →
              ∃ v, deserialize e ((b.drop (i * fixedSize e)).take (fixedSize e)) = .ok v
                ∧ vs[i]? = some v) := by
  have hw' := hw
  rw [WF] at hw'
  simp only [Bool.and_eq_true, Bool.not_eq_eq_eq_not, Bool.not_true,
    decide_eq_true_eq] at hw'
  obtain ⟨⟨⟨⟨hwe, hnve⟩, hse⟩, _⟩, _⟩ := hw'
  constructor
  · by_cases h1 : m * fixedSize e > b.length
    · constructor
      · intro _
        exact Or.inl (by omega)
      · intro _
        rw [deserialize, if_pos h1]
    · by_cases h2 : tooLong M b.length (fixedSize e) = true
      · constructor
        · intro _
          exact Or.inr (Or.inl h2)
        · intro _
          rw [deserialize, if_neg h1, if_pos h2]
      · by_cases h3 : b.length % fixedSize e ≠ 0
        · constructor
          · intro _
            exact Or.inr (Or.inr h3)
          · intro _
            rw [deserialize, if_neg h1]
            rw [show tooLong M b.length (fixedSize e) = false from by simpa using h2]
            simp only [Bool.false_eq_true, if_false]
            rw [if_pos h3]
        · constructor
          · intro hde
            exfalso
            have h3' : b.length % fixedSize e = 0 := by
              push_neg at h3
              exact h3
            have hdvd : fixedSize e ∣ b.length := Nat.dvd_of_mod_eq_zero h3'
            have hchlen : ∀ ch ∈ chunkList (fixedSize e) b, ch.length = fixedSize e :=
              fun ch hch => (chunkList_mem (fixedSize e) b hse hdvd ch hch).1
            have hnde := decodeChunks_noDecodeErr e (chunkList (fixedSize e) b) hwe hnve hchlen
            rw [deserialize, if_neg h1] at hde
            rw [show tooLong M b.length (fixedSize e) = false from by simpa using h2] at hde
            simp only [Bool.false_eq_true, if_false] at hde
            rw [if_neg h3] at hde
            cases hdc : decodeChunks e (chunkList (fixedSize e) b) with
            | error err =>
              simp only [hdc] at hde
              injection hde with herr
              exact hnde (by rw [hdc, herr])
            | ok vs =>
              simp only [hdc] at hde
              exact absurd hde (by simp)
          · intro hcond
            rcases hcond with h | h | h
            · omega
            · exact absurd h h2
            · exact absurd h h3
  · intro hdt hge htl hmod
    have h1 : ¬ (m * fixedSize e > b.length) := by omega
    have hdvd : fixedSize e ∣ b.length := Nat.dvd_of_mod_eq_zero hmod
    have hch := chunkList_mem (fixedSize e) b hse hdvd
    obtain ⟨vs, hvs, hlvs, _⟩ := decodeChunks_total e (chunkList (fixedSize e) b)
      hwe hnve hdt (fun ch hc => (hch ch hc).1)
      (fun ch hc => by
        rw [bytesOk_iff]
        exact fun x hx => (bytesOk_iff b).mp hb x ((hch ch hc).2 x hx))
    refine ⟨vs, ?_, ?_, ?_⟩
    · rw [deserialize, if_neg h1, htl]
      simp only [Bool.false_eq_true, if_false]
      rw [if_neg (by omega)]
      simp [hvs]
    · rw [hlvs, chunkList_length (fixedSize e) b hse hdvd]
    · intro i hi
      have hchi : (chunkList (fixedSize e) b)[i]?
          = some ((b.drop (i * fixedSize e)).take (fixedSize e)) :=
        chunkList_getElem (fixedSize e) b hse hdvd i hi
      exact decodeChunks_get e (chunkList (fixedSize e) b) vs hvs i _ hchi


/-- C3 counterexample to the unqualified success clause: the element
codec is a one-byte struct whose single member is an enum with literals
0 and 1.  The byte string `[5]` has a legal length for
`Array[0:2, E]` (within bounds and a multiple of the element size), but
decoding fails with `ValidationError`: `Enum.deserialize` accepts the
byte, yet the constructor used by `Struct.deserialize` re-validates the
field through `Enum._heracles_validate_`, which rejects the non-literal
value 5. -/
theorem C3_counterexample :
    ¬ ((1 : Nat) < 0 * fixedSize (Codec.strukt [(MKey.name "e", Codec.enumC 1 false false 0 [0, 1])])
        ∨ tooLong (some 2) 1 (fixedSize (Codec.strukt [(MKey.name "e", Codec.enumC 1 false false 0 [0, 1])])) = true
        ∨ (1 : Nat) % fixedSize (Codec.strukt [(MKey.name "e", Codec.enumC 1 false false 0 [0, 1])]) ≠ 0)
    ∧ deserialize (Codec.array 0 (some 2)
          (Codec.strukt [(MKey.name "e", Codec.enumC 1 false false 0 [0, 1])])) [5]
        = .error .validationError := by
  constructor
  · simp [fixedSize, fixedSizeM, tooLong]
  · simp [deserialize, decodeChunks, decodeMembers, chunkList, fixedSize, fixedSizeM,
      tooLong, isVst, sizeDiffers, lastIsVst, isHiddenC, unpackInt, decodeLE,
      inRangeI, half256, validateFields, validateVis, validate, maxLenOk]

/-- C3 witness: `Array[2:5, u8]` — the example of the spec.  The
one-byte string is below the minimum and fails with `DecodeError`; the
three-byte string decodes to three elements. -/
theorem C3_array_decode_bounds_witness :
    deserialize (Codec.array 2 (some 5) u8c) [1] = .error .decodeError
    ∧ (∃ vs, deserialize (Codec.array 2 (some 5) u8c) [1, 2, 3] = .ok (.seq vs)
        ∧ vs.length = 3) := by
  have hw : WF (Codec.array 2 (some 5) u8c) = true := by
    simp [WF, u8c, widthOk, inRangeI, half256, isVst, sizeDiffers, isHiddenC,
      fixedSize, minLeMax]
  constructor
  · exact (C3_array_decode_bounds 2 (some 5) u8c [1] hw (by simp [bytesOk])).1.mpr
      (Or.inl (by simp [u8c, fixedSize]))
  · obtain ⟨vs, hok, hlen, _⟩ :=
      (C3_array_decode_bounds 2 (some 5) u8c [1, 2, 3] hw (by simp [bytesOk])).2
        (by simp [decTotal, u8c]) (by simp [u8c, fixedSize])
        (by simp [tooLong, u8c, fixedSize]) (by simp [u8c, fixedSize])
    refine ⟨vs, hok, ?_⟩
    rw [hlen]
    simp [u8c, fixedSize]


end Heracles
